import Mathlib

/-!
Verification of the heuristic timetable-extraction engine of
`src/src/app/api/parse/route.ts` (supervised timetable generator).

The TypeScript source is shallowly embedded below.  Conventions:

* JS strings are Lean `String`s; all character-level processing is done on
  `List Char` with structural recursions so that every definition reduces in
  the kernel (`decide` / `rfl` on concrete inputs).
* JS `Number(...)` is modelled by `jsNumber : List Char → Option Int`;
  `none` models `NaN`.  Only integer numerals (with optional sign and
  surrounding whitespace, `"" ↦ 0`) are modelled: every number that reaches
  `Number` in this program is a decimal digit string.  Floating point
  confidence arithmetic is modelled with `ℚ` (the values involved are the
  exact decimals 1.0, 0.5, 0.3, 0.25, 0.2).
* The module-level regexes `SECTION_PATTERN` and `COMBINED_SECTION_PATTERN`
  are declared with the `g` flag, so `RegExp.prototype.test` reads and
  writes their `lastIndex` property and `String.prototype.matchAll` reads
  it.  This mutable module state is threaded explicitly as `RegexCursors`.
  Their matchers are implemented below directly from the two regex
  literals, including word boundaries, case-insensitivity, greediness and
  backtracking order.
* Cell resolvers (`getMergedCellValue` closures) are passed as functions
  `Int → Int → String`, since `parseCell` probes neighbours at `row-1`,
  `col-1` which may be negative (such addresses hold no cell and resolve
  to the empty string).
-/

/- The four core rational operations are `[irreducible]` by default, which
blocks elaborator-side evaluation of `decide` goals that mention exact
confidence arithmetic; the kernel itself can unfold them. -/
attribute [local semireducible] Rat.mul Rat.inv Rat.sub Rat.add

/-! ## Character and string primitives -/

/-- ASCII decimal digit (JS `\d`). -/
def isDigitC (c : Char) : Bool := '0' ≤ c && c ≤ '9'

/-- ASCII letter (JS `[A-Za-z]`, and `[A-Z]` under the `i` flag). -/
def isAlphaC (c : Char) : Bool := ('A' ≤ c && c ≤ 'Z') || ('a' ≤ c && c ≤ 'z')

/-- JS `\w` word character, used for `\b` word boundaries. -/
def isWordC (c : Char) : Bool := isAlphaC c || isDigitC c || c = '_'

/-- JS `\s` whitespace (the code points that occur in spreadsheet text). -/
def isWS (c : Char) : Bool :=
  c = ' ' || c = '\t' || c = '\n' || c = '\r' ||
  c = (Char.ofNat 11) || c = (Char.ofNat 12) || c = (Char.ofNat 0xA0)

/-- ASCII lower-casing, modelling `String.prototype.toLowerCase` on the
ASCII inputs this program handles. -/
def toLowerC (c : Char) : Char :=
  if 'A' ≤ c && c ≤ 'Z' then Char.ofNat (c.toNat + 32) else c

/-- ASCII upper-casing, modelling `String.prototype.toUpperCase`. -/
def toUpperC (c : Char) : Char :=
  if 'a' ≤ c && c ≤ 'z' then Char.ofNat (c.toNat - 32) else c

def lowerL (l : List Char) : List Char := l.map toLowerC

def upperL (l : List Char) : List Char := l.map toUpperC

/-- Leading-whitespace removal. -/
def dropWS (l : List Char) : List Char := l.dropWhile isWS

/-- JS `String.prototype.trim`. -/
def trimL (l : List Char) : List Char := (dropWS ((dropWS l.reverse)).reverse)

def strTrim (s : String) : String := String.mk (trimL s.toList)

/-- Length of the maximal leading run of characters satisfying `p`. -/
def countLeading (p : Char → Bool) : List Char → Nat
  | [] => 0
  | c :: rest => if p c then countLeading p rest + 1 else 0

/-- JS `String.prototype.includes`: does `pat` occur inside `l`? -/
def containsSub (l pat : List Char) : Bool :=
  if pat.isPrefixOf l then true
  else
    match l with
    | [] => false
    | _ :: rest => containsSub rest pat

def strContains (s sub : String) : Bool := containsSub s.toList sub.toList

/-- JS `String.prototype.split` with a single-character separator. -/
def splitOnC (sep : Char) : List Char → List (List Char)
  | [] => [[]]
  | c :: rest =>
    match splitOnC sep rest with
    | [] => [[]]
    | h :: t => if c = sep then [] :: h :: t else (c :: h) :: t

/-- Split on runs of characters satisfying `p`; together with the
trim-and-drop-empties done by `parseCell`, this models
`split(/[\r\n]+/)`. -/
def splitOnP (p : Char → Bool) : List Char → List (List Char)
  | [] => [[]]
  | c :: rest =>
    match splitOnP p rest with
    | [] => [[]]
    | h :: t => if p c then [] :: h :: t else (c :: h) :: t

/-- Worker for `collapseWS`; `pending` records an unfinished whitespace run. -/
def collapseWSAux (pending : Bool) : List Char → List Char
  | [] => if pending then [' '] else []
  | c :: rest =>
    if isWS c then collapseWSAux true rest
    else (if pending then [' '] else []) ++ c :: collapseWSAux false rest

/-- JS `replace(/\s+/g, " ")`: collapse every whitespace run to one space. -/
def collapseWS (l : List Char) : List Char := collapseWSAux false l

/-- JS `Number(...)` on the strings this program feeds it (see header). -/
def jsNumber (l : List Char) : Option Int :=
  let t := trimL l
  let digits : List Char → Option Int := fun d =>
    if d ≠ [] && d.all isDigitC then
      some (d.foldl (fun a c => a * 10 + ((c.toNat : Int) - 48)) 0)
    else none
  match t with
  | [] => some 0
  | '-' :: rest => (digits rest).map (fun n => -n)
  | '+' :: rest => digits rest
  | _ => digits t

/-- Decimal digits of `n`, most significant first (fuel-structured). -/
def natDigitsAux : Nat → Nat → List Char
  | 0, _ => []
  | fuel + 1, n =>
    if n < 10 then [Char.ofNat (48 + n)]
    else natDigitsAux fuel (n / 10) ++ [Char.ofNat (48 + n % 10)]

def natToStrL (n : Nat) : List Char := natDigitsAux (n + 1) n

/-- JS `${x}` for the (integer-valued) numbers this program prints. -/
def numOutL : Option Int → List Char
  | none => ['N', 'a', 'N']
  | some i => if i < 0 then '-' :: natToStrL i.natAbs else natToStrL i.natAbs

/-- JS `padStart(2, "0")`. -/
def padStart2 (l : List Char) : List Char :=
  if l.length ≥ 2 then l
  else if l.length = 1 then '0' :: l
  else ['0', '0']

/-- Worker for `dedupFirst`, keeping the set of already-seen strings. -/
def dedupFirstAux (seen : List String) : List String → List String
  | [] => []
  | x :: rest =>
    if seen.contains x then dedupFirstAux seen rest
    else x :: dedupFirstAux (x :: seen) rest

/-- First-occurrence deduplication, i.e. `[...new Set(xs)]`. -/
def dedupFirst (l : List String) : List String := dedupFirstAux [] l

/-- Inclusive integer range `[a..b]` of the JS `for (i = a; i <= b; i++)`
loops (empty when `b < a`). -/
def natRangeIncl (a b : Nat) : List Nat := (List.range (b + 1 - a)).map (a + ·)

/-- Exclusive range `[a..b)` of `for (i = a; i < b; i++)`. -/
def natRangeExcl (a b : Nat) : List Nat := (List.range (b - a)).map (a + ·)

/-! ## The two module-level global regexes

`SECTION_PATTERN  = /\b(BS[A-Z]{2,4}-\d{1,2}[A-Za-z]?)(?:Combined)?\b/gi`
`COMBINED_SECTION_PATTERN = /BS[A-Z]{2,4}-\d+[A-Z]?\s*\/\s*BS[A-Z]{2,4}-\d+[A-Z]?/gi`

Both carry the `g` flag, so they own a mutable `lastIndex` cursor shared by
every caller in the module; `test` reads and writes it, `matchAll` reads it,
`replace` resets it.  -/

/-- The mutable `lastIndex` cursors of the two module-level regexes. -/
structure RegexCursors where
  sec : Nat
  comb : Nat
deriving DecidableEq, Repr

/-- Case-insensitive match of the literal `pat` at the head of `l`
(for the `(?:Combined)?` group under the `i` flag). -/
def ciStartsWith (pat : List Char) (l : List Char) : Bool :=
  match pat, l with
  | [], _ => true
  | _ :: _, [] => false
  | p :: ps, c :: cs => toLowerC p = toLowerC c && ciStartsWith ps cs

/-- JS `\b` at the position right after a word character: true iff the next
character is absent or not a word character. -/
def boundaryAfter (l : List Char) : Bool :=
  match l with
  | [] => true
  | c :: _ => !isWordC c

/-- Attempt to match the tail of `SECTION_PATTERN` — `[A-Za-z]?(?:Combined)?\b`
— at `u`, in the engine's greedy backtracking order (letter before no-letter,
`Combined` before no-`Combined`).  Returns `(group1 extra, full extra)`
lengths on success. -/
def sectionTail (u : List Char) : Option (Nat × Nat) :=
  match u with
  | c :: u' =>
    if isAlphaC c then
      if ciStartsWith ['c','o','m','b','i','n','e','d'] u' && boundaryAfter (u'.drop 8) then
        some (1, 9)
      else if boundaryAfter u' then some (1, 1)
      else if ciStartsWith ['c','o','m','b','i','n','e','d'] u && boundaryAfter (u.drop 8) then
        some (0, 8)
      else if boundaryAfter u then some (0, 0)
      else none
    else
      if ciStartsWith ['c','o','m','b','i','n','e','d'] u && boundaryAfter (u.drop 8) then
        some (0, 8)
      else if boundaryAfter u then some (0, 0)
      else none
  | [] => some (0, 0)

/-- Attempt `SECTION_PATTERN` (without the leading `\b`) at the head of `t`:
`BS` (case-insensitive), 2–4 letters, `-`, 1–2 digits, then `sectionTail`.
Returns `(group1 length, full match length)`. -/
def sectionCore (t : List Char) : Option (Nat × Nat) :=
  match t with
  | b :: s :: rest =>
    if toLowerC b = 'b' && toLowerC s = 's' then
      let r := countLeading isAlphaC rest
      if 2 ≤ r && r ≤ 4 then
        match rest.drop r with
        | '-' :: afterDash =>
          let d := countLeading isDigitC afterDash
          if d = 0 then none
          else
            -- greedy `\d{1,2}`: try two digits first, then one
            let tryK : Nat → Option (Nat × Nat) := fun k =>
              (sectionTail (afterDash.drop k)).map
                (fun p => (2 + r + 1 + k + p.1, 2 + r + 1 + k + p.2))
            if 2 ≤ d then
              match tryK 2 with
              | some res => some res
              | none => tryK 1
            else tryK 1
        | _ => none
      else none
    else none
  | _ => none

/-- Match `SECTION_PATTERN` exactly at position `i` of `l` (checking the
leading `\b`). -/
def sectionAt (l : List Char) (i : Nat) : Option (Nat × Nat) :=
  let okBefore :=
    if i = 0 then true
    else match l.get? (i - 1) with
         | some c => !isWordC c
         | none => true
  if okBefore then sectionCore (l.drop i) else none

/-- First `SECTION_PATTERN` match at a position `≥ i`:
`(start, group1 length, full length)`. -/
def sectionExecAux (l : List Char) : Nat → Nat → Option (Nat × Nat × Nat)
  | 0, _ => none
  | fuel + 1, i =>
    if i ≤ l.length then
      match sectionAt l i with
      | some (g, f) => some (i, g, f)
      | none => sectionExecAux l fuel (i + 1)
    else none

def sectionExecFrom (l : List Char) (i : Nat) : Option (Nat × Nat × Nat) :=
  sectionExecAux l (l.length + 1 - i) i

/-- Model of `SECTION_PATTERN.test(s)` from cursor `li`: result and new cursor
(JS advances `lastIndex` to the match end on success, resets it to 0 on
failure). -/
def sectionTest (l : List Char) (li : Nat) : Bool × Nat :=
  match sectionExecFrom l li with
  | some (i, _, f) => (true, i + f)
  | none => (false, 0)

/-- All group-1 captures from cursor `li` on, in order — the matcher behind
`matchAll` (which copies the regex's `lastIndex` into a private clone, so
the shared cursor itself is not written). -/
def sectionMatchesAux (l : List Char) : Nat → Nat → List (List Char)
  | 0, _ => []
  | fuel + 1, i =>
    match sectionExecFrom l i with
    | some (j, g, f) => (l.drop j).take g :: sectionMatchesAux l fuel (j + f)
    | none => []

def sectionMatchesFrom (l : List Char) (li : Nat) : List (List Char) :=
  sectionMatchesAux l (l.length + 1) li

/-- Model of `s.replace(SECTION_PATTERN, "")` (global replace always restarts at 0 and
leaves the cursor at 0). -/
def sectionStripAux (l : List Char) : Nat → Nat → List Char
  | 0, i => l.drop i
  | fuel + 1, i =>
    match sectionExecFrom l i with
    | some (j, _, f) => (l.drop i).take (j - i) ++ sectionStripAux l fuel (j + f)
    | none => l.drop i

def sectionStrip (l : List Char) : List Char := sectionStripAux l (l.length + 1) 0

/-- One half `BS[A-Z]{2,4}-\d+` of `COMBINED_SECTION_PATTERN` at the head of
`t` (the optional trailing letter is handled at the call sites); returns the
consumed length. -/
def combinedHalf (t : List Char) : Option Nat :=
  match t with
  | b :: s :: rest =>
    if toLowerC b = 'b' && toLowerC s = 's' then
      let r := countLeading isAlphaC rest
      if 2 ≤ r && r ≤ 4 then
        match rest.drop r with
        | '-' :: afterDash =>
          let d := countLeading isDigitC afterDash
          if d = 0 then none else some (2 + r + 1 + d)
        | _ => none
      else none
    else none
  | _ => none

/-- Model of `COMBINED_SECTION_PATTERN` at the head of `t` (no `\b` anchors):
half, optional letter, `\s*`, `/`, `\s*`, half, optional letter. -/
def combinedCore (t : List Char) : Option Nat :=
  match combinedHalf t with
  | none => none
  | some n1 =>
    let u := t.drop n1
    -- greedy `[A-Z]?`: taking a letter and then failing at `\s*\/` cannot be
    -- rescued by backtracking (the letter is neither whitespace nor `/`),
    -- so the choice is deterministic.
    let k1 := match u with
              | c :: _ => if isAlphaC c then 1 else 0
              | [] => 0
    let v := u.drop k1
    let w := countLeading isWS v
    match v.drop w with
    | '/' :: afterSlash =>
      let w2 := countLeading isWS afterSlash
      match combinedHalf (afterSlash.drop w2) with
      | none => none
      | some n2 =>
        let z := (afterSlash.drop w2).drop n2
        let k2 := match z with
                  | c :: _ => if isAlphaC c then 1 else 0
                  | [] => 0
        some (n1 + k1 + w + 1 + w2 + n2 + k2)
    | _ => none

/-- First `COMBINED_SECTION_PATTERN` match at a position `≥ i`:
`(start, full length)`. -/
def combinedExecAux (l : List Char) : Nat → Nat → Option (Nat × Nat)
  | 0, _ => none
  | fuel + 1, i =>
    if i ≤ l.length then
      match combinedCore (l.drop i) with
      | some f => some (i, f)
      | none => combinedExecAux l fuel (i + 1)
    else none

def combinedExecFrom (l : List Char) (i : Nat) : Option (Nat × Nat) :=
  combinedExecAux l (l.length + 1 - i) i

/-- Model of `COMBINED_SECTION_PATTERN.test(s)` from cursor `li`. -/
def combinedTest (l : List Char) (li : Nat) : Bool × Nat :=
  match combinedExecFrom l li with
  | some (i, f) => (true, i + f)
  | none => (false, 0)

/-- Model of `s.replace(COMBINED_SECTION_PATTERN, "")`. -/
def combinedStripAux (l : List Char) : Nat → Nat → List Char
  | 0, i => l.drop i
  | fuel + 1, i =>
    match combinedExecFrom l i with
    | some (j, f) => (l.drop i).take (j - i) ++ combinedStripAux l fuel (j + f)
    | none => l.drop i

def combinedStrip (l : List Char) : List Char := combinedStripAux l (l.length + 1) 0

/-- Matcher of `/^\s*\/\s*|\s*\/\s*$/` at position `i` of `l` (used with a
global replace to peel a leading or trailing slash off subject text).  The
first branch only applies at position 0; the second must reach the end. -/
def slashEdgeAt (l : List Char) (i : Nat) : Option Nat :=
  let t := l.drop i
  let branch1 : Option Nat :=
    if i = 0 then
      let w := countLeading isWS t
      match t.drop w with
      | '/' :: rest => some (w + 1 + countLeading isWS rest)
      | _ => none
    else none
  match branch1 with
  | some n => some n
  | none =>
    let w := countLeading isWS t
    match t.drop w with
    | '/' :: rest =>
      let w2 := countLeading isWS rest
      if rest.drop w2 = [] then some (w + 1 + w2) else none
    | _ => none

def slashEdgeStripAux (l : List Char) : Nat → Nat → List Char
  | 0, i => l.drop i
  | fuel + 1, i =>
    if i ≤ l.length then
      match slashEdgeAt l i with
      | some f => (slashEdgeStripAux l fuel (i + f))
      | none =>
        match l.drop i with
        | [] => []
        | c :: _ => c :: slashEdgeStripAux l fuel (i + 1)
    else []

/-- Model of `s.replace(/^\s*\/\s*|\s*\/\s*$/g, "")`. -/
def slashEdgeStrip (l : List Char) : List Char := slashEdgeStripAux l (l.length + 1) 0


/-! ## Token classifiers (route.ts 40–55, 61–195) -/

/-- Model of `DAY_NAMES` (route.ts:40). -/
def DAY_NAMES : List String :=
  ["Monday", "Tuesday", "Wednesday", "Thursday", "Friday", "Saturday", "Sunday"]

/-- Model of `DAY_KEYWORDS` (route.ts:41): the 3-letter abbreviations followed by the
lower-cased full names. -/
def DAY_KEYWORDS : List String :=
  ["mon", "tue", "wed", "thu", "fri", "sat", "sun"] ++
    ["monday", "tuesday", "wednesday", "thursday", "friday", "saturday", "sunday"]

/-- Model of `normalizeDayName` (route.ts:61–69): lower-case, drop the non-letters,
return the canonical weekday of the first keyword contained in the result. -/
def normalizeDayName (raw : String) : Option String :=
  let cleaned := (lowerL raw.toList).filter (fun c => 'a' ≤ c && c ≤ 'z')
  match DAY_KEYWORDS.findIdx? (fun kw => containsSub cleaned kw.toList) with
  | some i => DAY_NAMES.get? (i % 7)
  | none => none

/-- The character class `[.:-–—]` of `isLikelyTimeSlot` (route.ts:72).  In a
JS regex class `:-–` is a range, so the class is `.`, `U+003A … U+2013`
(which covers `;<=>?@`, all ASCII letters, brackets, `–`, …) and `—`;
the ASCII hyphen `-` (U+002D) and the digits are NOT in it. -/
def strippedByTimeClass (c : Char) : Bool :=
  c = '.' || (0x3A ≤ c.toNat && c.toNat ≤ 0x2013) || c.toNat = 0x2014

/-- Model of `\d{3,4}-\d{3,4}` somewhere in `t` starting at its head: an exact run of
3 or 4 digits, a hyphen, then at least 3 digits. -/
def dddAt (t : List Char) : Bool :=
  let r := countLeading isDigitC t
  (r = 3 || r = 4) && t.get? r = some '-' && 3 ≤ countLeading isDigitC (t.drop (r + 1))

/-- Model of `\d{1,2}sep\d{2}-\d{1,2}sep\d{2}` at the head of `t` (greedy 2-then-1
digit hours). -/
def hmPairAt (sep : Char) (t : List Char) : Bool :=
  let half : List Char → Option (List Char) := fun u =>
    let d := countLeading isDigitC u
    let withH : Nat → Option (List Char) := fun k =>
      if 1 ≤ k && k ≤ d then
        match u.drop k with
        | c :: v => if c = sep && 2 ≤ countLeading isDigitC v then some (v.drop 2) else none
        | [] => none
      else none
    match withH 2 with
    | some v => some v
    | none => withH 1
  match half t with
  | some v =>
    (match v with
     | '-' :: w => (half w).isSome
     | _ => false)
  | none => false

/-- Model of `isLikelyTimeSlot` (route.ts:71–76): strip whitespace and the class
above, then look for one of the three digit patterns.  (After the strip no
`:` or `.` survives, so only the first pattern can ever fire, but all three
are modelled.) -/
def isLikelyTimeSlot (text : String) : Bool :=
  let cl := (text.toList.filter (fun c => !isWS c)).filter (fun c => !strippedByTimeClass c)
  cl.tails.any dddAt || cl.tails.any (hmPairAt ':') || cl.tails.any (hmPairAt '.')

/-- Groups `(h1, m1, h2, m2)` of the first `normalizeTimeSlot` pattern
`(\d{1,2})[:.](\d{2})\s*[-–—]\s*(\d{1,2})[:.](\d{2})` at the head of `t`,
as parsed numbers. -/
def nts1At (t : List Char) : Option (Nat × Nat × Nat × Nat) :=
  let num : List Char → Nat := fun d => d.foldl (fun a c => a * 10 + (c.toNat - 48)) 0
  let half : List Char → Option (Nat × Nat × List Char) := fun u =>
    let d := countLeading isDigitC u
    let withH : Nat → Option (Nat × Nat × List Char) := fun k =>
      if 1 ≤ k && k ≤ d then
        match u.drop k with
        | c :: v =>
          if (c = ':' || c = '.') && 2 ≤ countLeading isDigitC v then
            some (num (u.take k), num (v.take 2), v.drop 2)
          else none
        | [] => none
      else none
    match withH 2 with
    | some r => some r
    | none => withH 1
  match half t with
  | some (h1, m1, v) =>
    let w := countLeading isWS v
    (match v.drop w with
     | c :: u =>
       if c = '-' || c = '–' || c = '—' then
         let w2 := countLeading isWS u
         (half (u.drop w2)).map (fun r => (h1, m1, r.1, r.2.1))
       else none
     | [] => none)
  | none => none

/-- Groups of the second pattern `(\d{2})(\d{2})[-–—](\d{2})(\d{2})`. -/
def nts2At (t : List Char) : Option (Nat × Nat × Nat × Nat) :=
  let num : List Char → Nat := fun d => d.foldl (fun a c => a * 10 + (c.toNat - 48)) 0
  if 4 ≤ countLeading isDigitC t then
    match t.drop 4 with
    | c :: u =>
      if (c = '-' || c = '–' || c = '—') && 4 ≤ countLeading isDigitC u then
        some (num (t.take 2), num ((t.drop 2).take 2), num (u.take 2), num ((u.drop 2).take 2))
      else none
    | [] => none
  else none

/-- Model of `to12Hour` (route.ts:105–112). -/
def to12Hour (time24 : String) : String :=
  let l := time24.toList
  if !l.contains ':' then time24
  else
    let parts := splitOnC ':' l
    let h0 := jsNumber (parts.headD [])
    let m0 := match parts.get? 1 with
              | some x => jsNumber x
              | none => none
    let period := match h0 with
                  | some h => if 12 ≤ h then "PM" else "AM"
                  | none => "AM"
    let h1 := match h0 with
              | some h => if 12 < h then some (h - 12) else h0
              | none => none
    let h2 := match h1 with
              | some h => if h = 0 then some 12 else h1
              | none => none
    String.mk (numOutL h2 ++ ':' :: padStart2 (numOutL m0) ++ ' ' :: period.toList)

/-- Core of `normalizeTimeSlot` (route.ts:78–103), parameterised by the
hour-adjustment rule applied to each raw hour (the code uses
`if (h <= 7) h += 12`). -/
def normTimeWith (adj : Nat → Nat) (raw : String) : Option (String × String) :=
  let cleaned := collapseWS (trimL raw.toList)
  let accept : Option (Nat × Nat × Nat × Nat) → Option (String × String) := fun g =>
    match g with
    | none => none
    | some (h1r, m1, h2r, m2) =>
      let h1 := adj h1r
      let h2 := adj h2r
      if 23 < h1 || 23 < h2 || 59 < m1 || 59 < m2 then none
      else
        some
          (to12Hour (String.mk (padStart2 (natToStrL h1) ++ ':' :: padStart2 (natToStrL m1))),
           to12Hour (String.mk (padStart2 (natToStrL h2) ++ ':' :: padStart2 (natToStrL m2))))
  match accept (cleaned.tails.findSome? nts1At) with
  | some r => some r
  | none => accept (cleaned.tails.findSome? nts2At)

/-- Model of `normalizeTimeSlot` exactly as in the source: hours `≤ 7` get 12 added. -/
def normalizeTimeSlot (raw : String) : Option (String × String) :=
  normTimeWith (fun h => if h ≤ 7 then h + 12 else h) raw

/-- Model of `time12ToMinutes` (route.ts:114–120); `none` is `NaN`. -/
def time12ToMinutes (time12 : String) : Option Int :=
  let parts := splitOnC ' ' time12.toList
  let timePart := parts.headD []
  let period := parts.get? 1
  let tp := splitOnC ':' timePart
  let h0 := jsNumber (tp.headD [])
  let m := match tp.get? 1 with
           | some x => jsNumber x
           | none => none
  let h1 := match h0 with
            | some h =>
              if period = some "PM".toList && h ≠ 12 then some (h + 12)
              else if period = some "AM".toList && h = 12 then some 0
              else some h
            | none => none
  match h1, m with
  | some h, some mm => some (h * 60 + mm)
  | _, _ => none

/-- Anchored `/^[A-Za-z]{1,3}\s*-?\s*\d{2,4}$/` (route.ts:129). -/
def roomPat1 (l : List Char) : Bool :=
  let a := countLeading isAlphaC l
  if 1 ≤ a && a ≤ 3 then
    let t := l.drop a
    let w := countLeading isWS t
    let t1 := t.drop w
    let t2 := match t1 with
              | '-' :: u => u
              | _ => t1
    let w2 := countLeading isWS t2
    let d := t2.drop w2
    let n := countLeading isDigitC d
    2 ≤ n && n ≤ 4 && d.length = n
  else false

/-- Anchored `/^L?R?-?\d{2,4}$/` (route.ts:130); note it is applied to the
lower-cased text, on which the capital `L`/`R` options can never fire. -/
def roomPat2 (l : List Char) : Bool :=
  let t1 := match l with
            | 'L' :: u => u
            | _ => l
  let t2 := match t1 with
            | 'R' :: u => u
            | _ => t1
  let t3 := match t2 with
            | '-' :: u => u
            | _ => t2
  let n := countLeading isDigitC t3
  2 ≤ n && n ≤ 4 && t3.length = n

/-- Model of `isLikelyRoom` (route.ts:122–132). -/
def isLikelyRoom (text : String) : Bool :=
  let lower := trimL (lowerL text.toList)
  containsSub lower "room".toList || containsSub lower "lab".toList ||
  containsSub lower "auditorium".toList || containsSub lower "hall".toList ||
  roomPat1 lower || roomPat2 lower

/-- Leftmost capture of `/(\d{2,4})/` in `l`: the first run of at least two
digits, truncated to four (route.ts:139). -/
def firstNumRun (l : List Char) : Option (List Char) :=
  l.tails.findSome? (fun t =>
    let r := countLeading isDigitC t
    if 2 ≤ r then some (t.take (min r 4)) else none)

/-- Model of `normalizeRoomName` (route.ts:134–145). -/
def normalizeRoomName (raw : String) : String :=
  let lower := String.mk (trimL (lowerL raw.toList))
  if strContains lower "auditorium" then "Auditorium"
  else if strContains lower "main hall" then "Main Hall"
  else
    match firstNumRun raw.toList with
    | some num =>
      if strContains lower "lab" || strContains lower "computer" then
        String.mk ("Lab-".toList ++ num)
      else if strContains lower "room" || strContains lower "lecture" then
        String.mk ("Room #".toList ++ num)
      else strTrim raw
    | none => strTrim raw

/-- Model of `extractAllSections` (route.ts:147–151) at SECTION cursor `li` — the
`matchAll` inside it starts from the regex's current `lastIndex` (copied
into the matcher clone) and does not write the shared cursor back. -/
def extractAllSectionsSt (text : String) (li : Nat) : List String :=
  dedupFirst ((sectionMatchesFrom text.toList li).map (fun g => String.mk (upperL g)))

/-- Model of `extractAllSections` with a clean (zero) cursor. -/
def extractAllSections (text : String) : List String := extractAllSectionsSt text 0

/-- Anchored-prefix helper: `alt` then `\s*` then `suffix`, then end. -/
def altWSuffixEnd (l : List Char) (alt : String) (suffix : String) : Bool :=
  alt.toList.isPrefixOf l &&
    (let t := (l.drop alt.length).dropWhile isWS
     t = suffix.toList)

/-- Model of `isSkippable` (route.ts:166–195) on the lower-cased trimmed text. -/
def isSkippable (text : String) : Bool :=
  let lower := trimL (lowerL text.toList)
  let pfx : String → Bool := fun p => p.toList.isPrefixOf lower
  lower = [] ||
  containsSub lower "used in".toList ||
  altWSuffixEnd lower "it" "department" ||
  altWSuffixEnd lower "jumma" "prayer" ||
  lower = "room".toList || lower = "rooms".toList ||
  ["ground", "1st", "2nd", "3rd", "ist", "!st"].any
    (fun a => altWSuffixEnd lower a "floor") ||
  pfx "department" || pfx "semester" ||
  (pfx "time" && (let t := (lower.drop 4).dropWhile isWS; "table".toList.isPrefixOf t)) ||
  pfx "timetable" || pfx "schedule" || pfx "updated" || pfx "effective" ||
  pfx "note:" ||
  (pfx "page" && (match (lower.drop 4).dropWhile isWS with
                  | c :: _ => isDigitC c
                  | [] => false)) ||
  (let t := match lower with
            | 's' :: '.' :: u => some u
            | 's' :: u => some u
            | _ => none
   match t with
   | some u =>
     let v := u.dropWhile isWS
     v = "no".toList || v = "no.".toList
   | none => false) ||
  (let t := match lower with
            | 's' :: 'r' :: '.' :: u => some u
            | 's' :: 'r' :: u => some u
            | _ => none
   match t with
   | some u =>
     let v := u.dropWhile isWS
     v = [] || v = ['#']
   | none => false) ||
  pfx "total" ||
  containsSub lower "break".toList || containsSub lower "lunch".toList ||
  containsSub lower "recess".toList || containsSub lower "prayer".toList ||
  containsSub lower "free".toList || containsSub lower "off".toList ||
  lower = ['-']

/-- The teacher-title test `/^(Mr\.?|Ms\.?|Mrs\.?|Dr\.?|Prof\.?|Engr\.?|Sir|Madam)/i`
(route.ts:221, 251, 254).  The optional dots do not affect whether the test
succeeds, so a case-insensitive prefix check against the bare titles
suffices. -/
def teacherLike (text : String) : Bool :=
  let l := lowerL text.toList
  ["mr", "ms", "mrs", "dr", "prof", "engr", "sir", "madam"].any
    (fun p => p.toList.isPrefixOf l)

/-! ## Cell disambiguator `parseCell` (route.ts:201–264) -/

/-- Result record of `parseCell`. -/
structure PCResult where
  subject : String
  teacher : String
  sections : List String
  confidence : ℚ
deriving DecidableEq, Repr

/-- One iteration of the line loop of `parseCell` (route.ts:214–231).  The
accumulator carries the subject and teacher found so far (as `List Char`,
`[]` meaning "not yet assigned") and the two regex cursors; note that the
two `test` calls advance/reset the shared cursors and the two `replace`
calls in the subject branch reset them to 0. -/
def parseCellLine (acc : (List Char × List Char) × RegexCursors) (line : List Char) :
    (List Char × List Char) × RegexCursors :=
  let subj := acc.1.1
  let teach := acc.1.2
  let st := acc.2
  let lineS := String.mk line
  if isSkippable lineS then acc
  else
    let t1 := sectionTest line st.sec
    let st1 : RegexCursors := ⟨t1.2, st.comb⟩
    if t1.1 then ((subj, teach), st1)
    else
      let t2 := combinedTest line st1.comb
      let st2 : RegexCursors := ⟨st1.sec, t2.2⟩
      if t2.1 then ((subj, teach), st2)
      else if isLikelyTimeSlot lineS then ((subj, teach), st2)
      else if teacherLike lineS then
        (if teach = [] then ((subj, line), st2) else ((subj, teach), st2))
      else if subj = [] then
        let cleaned := trimL (slashEdgeStrip (sectionStrip (combinedStrip line)))
        -- both global `replace` calls leave their cursor at 0
        let st3 : RegexCursors := ⟨0, 0⟩
        if 1 < cleaned.length then ((cleaned, teach), st3) else ((subj, teach), st3)
      else ((subj, teach), st2)

/-- The line scan of `parseCell` (route.ts:208, 214–231): split on runs of
line breaks, trim, drop empties, and fold `parseCellLine`. -/
def parseCellScan (cellText : String) (st : RegexCursors) :
    (List Char × List Char) × RegexCursors :=
  let lines := ((splitOnP (fun c => c = '\r' || c = '\n') cellText.toList).map trimL).filter
    (fun l => l ≠ [])
  lines.foldl parseCellLine (((([] : List Char), ([] : List Char)), st))

/-- Subject fallback of `parseCell` (route.ts:233–246): returns the chosen
subject and the confidence penalty (0, 0.25 or 0.5). -/
def subjFallback (subj0 : List Char) (left above : String) : List Char × ℚ :=
  if subj0 ≠ [] then (subj0, 0)
  else if left ≠ "" && !isLikelyRoom left && !isLikelyTimeSlot left && !isSkippable left then
    (trimL left.toList, 1/4)
  else if above ≠ "" && !isLikelyRoom above && !isLikelyTimeSlot above && !isSkippable above then
    (trimL above.toList, 1/4)
  else ("Unknown Subject".toList, 1/2)

/-- Teacher fallback of `parseCell` (route.ts:248–261): returns the chosen
teacher and the confidence penalty (0, 0.2 or 0.5). -/
def teachFallback (teach0 : List Char) (right below : String) : List Char × ℚ :=
  if teach0 ≠ [] then (teach0, 0)
  else if right ≠ "" && teacherLike right then (trimL right.toList, 1/5)
  else if below ≠ "" && teacherLike below then (trimL below.toList, 1/5)
  else ("Unknown Teacher".toList, 1/2)

/-- Model of `parseCell` (route.ts:201–264).  `g` is the cell resolver capability
(`getCellValue`), `row`/`col` the cell's own address; the incoming and
outgoing `RegexCursors` model the module-level regex state. -/
def parseCellSt (cellText : String) (g : Int → Int → String) (row col : Int)
    (st : RegexCursors) : PCResult × RegexCursors :=
  let sections := extractAllSectionsSt cellText st.sec
  let acc := parseCellScan cellText st
  let subjP := subjFallback acc.1.1 (g row (col - 1)) (g (row - 1) col)
  let teachP := teachFallback acc.1.2 (g row (col + 1)) (g (row + 1) col)
  (⟨String.mk subjP.1, String.mk teachP.1, sections, 1 - subjP.2 - teachP.2⟩, acc.2)


/-! ## Data model (route.ts:11–34) -/

/-- Model of `LectureEntry` (route.ts:11–21). -/
structure LectureEntry where
  day : String
  time : String
  startTime : String
  endTime : String
  subject : String
  teacher : String
  room : String
  «section» : String
  confidence : ℚ
deriving DecidableEq, Repr

/-- Model of `TimeSlotInfo` (route.ts:23–28). -/
structure TimeSlotInfo where
  col : Nat
  raw : String
  start12 : String
  end12 : String
deriving DecidableEq, Repr

/-- Model of `ParseResult` (route.ts:30–34). -/
structure ParseResult where
  entries : List LectureEntry
  strategyName : String
  avgConfidence : ℚ
deriving DecidableEq, Repr

/-- A decoded `XLSX.Range`: start/end row and column (all non-negative). -/
structure CellRange where
  sr : Nat
  sc : Nat
  er : Nat
  ec : Nat
deriving DecidableEq, Repr

/-! ## Strategy 1: `parseRoomRowLayout` (route.ts:391–473) -/

/-- Mutable state of the room-row scan: the carried day / time-slot headers,
the accumulated entries and confidence totals, and the regex cursors. -/
structure RRState where
  curDay : String
  slots : List TimeSlotInfo
  entries : List LectureEntry
  totalConf : ℚ
  count : Nat
  rst : RegexCursors
deriving Repr

/-- Emission for one data cell under one active time-slot column
(route.ts:443–465): skip empty or skippable text, disambiguate with
`parseCell`, and emit one entry per extracted section code. -/
def roomRowCell (r : Nat) (day room : String) (g : Int → Int → String)
    (st : RRState) (ts : TimeSlotInfo) : RRState :=
  let cellVal := g r ts.col
  if cellVal = "" || isSkippable cellVal then st
  else
    let pcr := parseCellSt cellVal g r ts.col st.rst
    let pc := pcr.1
    if pc.sections = [] then { st with rst := pcr.2 }
    else
      let newEntries := pc.sections.map (fun sec =>
        { day := day
          time := ts.start12 ++ " – " ++ ts.end12
          startTime := ts.start12
          endTime := ts.end12
          subject := pc.subject
          teacher := pc.teacher
          room := room
          «section» := sec
          confidence := pc.confidence : LectureEntry })
      { st with
        entries := st.entries ++ newEntries
        totalConf := st.totalConf + pc.sections.length * pc.confidence
        count := st.count + pc.sections.length
        rst := pcr.2 }

/-- One row of the room-row scan (route.ts:403–466). -/
def roomRowRow (rng : CellRange) (g : Int → Int → String) (st : RRState) (r : Nat) :
    RRState :=
  let dayFound := (natRangeIncl 0 (min 3 rng.ec)).findSome? (fun (c : Nat) =>
    let v := g r c
    if v ≠ "" then normalizeDayName v else none)
  let curDay := match dayFound with
                | some d => d
                | none => st.curDay
  let rowTimes := (natRangeIncl 0 rng.ec).filterMap (fun (c : Nat) =>
    let v := g r c
    if v ≠ "" && isLikelyTimeSlot v then
      (normalizeTimeSlot v).map (fun p => (⟨c, v, p.1, p.2⟩ : TimeSlotInfo))
    else none)
  if 2 ≤ rowTimes.length then { st with curDay := curDay, slots := rowTimes }
  else if curDay = "" || st.slots = [] then { st with curDay := curDay }
  else
    let room := match (natRangeIncl 0 (min 3 rng.ec)).findSome? (fun (c : Nat) =>
        let v := g r c
        if v ≠ "" && isLikelyRoom v then some (normalizeRoomName v) else none) with
      | some x => x
      | none => ""
    if room = "" then { st with curDay := curDay }
    else st.slots.foldl (roomRowCell r curDay room g) { st with curDay := curDay }

/-- Model of `parseRoomRowLayout` with threaded regex cursors. -/
def parseRoomRowLayoutSt (rng : CellRange) (g : Int → Int → String)
    (rst : RegexCursors) : ParseResult × RegexCursors :=
  let fin := (natRangeIncl rng.sr rng.er).foldl (roomRowRow rng g)
    ⟨"", [], [], 0, 0, rst⟩
  (⟨fin.entries, "room-row",
     if fin.count ≠ 0 then fin.totalConf / (fin.count : ℚ) else 0⟩, fin.rst)


/-! ## Strategy 2: `parseColumnBasedDays` (route.ts:475–547)

This strategy touches neither `parseCell` nor the two global regexes, so it
needs no `RegexCursors`. -/

/-- The keyword columns found so far (`headerColumns`, a plain object whose
fields are overwritten as keywords are encountered; it persists across the
scanned header rows). -/
structure HeaderCols where
  «section» : Option Nat
  subject : Option Nat
  teacher : Option Nat
  day : Option Nat
  time : Option Nat
  floor : Option Nat
  room : Option Nat
deriving DecidableEq, Repr

def HeaderCols.size (hc : HeaderCols) : Nat :=
  (if hc.«section».isSome then 1 else 0) + (if hc.subject.isSome then 1 else 0) +
  (if hc.teacher.isSome then 1 else 0) + (if hc.day.isSome then 1 else 0) +
  (if hc.time.isSome then 1 else 0) + (if hc.floor.isSome then 1 else 0) +
  (if hc.room.isSome then 1 else 0)

/-- The seven keyword checks of route.ts:491–497 applied to one header cell. -/
def updHeaderCols (hc : HeaderCols) (c : Nat) (raw : String) : HeaderCols :=
  let val := String.mk (trimL (lowerL raw.toList))
  let hc := if strContains val "section" then { hc with «section» := some c } else hc
  let hc := if strContains val "course" || strContains val "subject" then
              { hc with subject := some c } else hc
  let hc := if strContains val "teacher" then { hc with teacher := some c } else hc
  let hc := if strContains val "day" then { hc with day := some c } else hc
  let hc := if strContains val "time" || strContains val "slot" then
              { hc with time := some c } else hc
  let hc := if strContains val "floor" then { hc with floor := some c } else hc
  let hc := if strContains val "room" then { hc with room := some c } else hc
  hc

/-- Header scan (route.ts:487–505): walk the first 16 rows, updating the
keyword columns cell by cell and stopping (`break`) at the first cell after
which at least four keyword columns are known. -/
def findHeaderRow (rng : CellRange) (g : Int → Int → String) :
    HeaderCols × Option Nat :=
  (natRangeIncl rng.sr (min (rng.sr + 15) rng.er)).foldl
    (fun acc (r : Nat) =>
      match acc.2 with
      | some _ => acc
      | none =>
        (natRangeIncl rng.sc rng.ec).foldl
          (fun acc2 (c : Nat) =>
            match acc2.2 with
            | some _ => acc2
            | none =>
              let hc := updHeaderCols acc2.1 c (g r c)
              if 4 ≤ hc.size then (hc, some r) else (hc, none))
          acc)
    (⟨none, none, none, none, none, none, none⟩, none)

/-- One data row of `parseColumnBasedDays` (route.ts:509–540). -/
def columnBasedRow (hc : HeaderCols) (g : Int → Int → String)
    (acc : List LectureEntry × ℚ × Nat) (r : Nat) : List LectureEntry × ℚ × Nat :=
  let sec := g r ((hc.«section».getD 0 : Nat) : Int)
  let subj := g r ((hc.subject.getD 0 : Nat) : Int)
  let teach := g r ((hc.teacher.getD 0 : Nat) : Int)
  let day := normalizeDayName (g r ((hc.day.getD 0 : Nat) : Int))
  let timeVal := g r ((hc.time.getD 0 : Nat) : Int)
  let floor := g r ((hc.floor.getD 0 : Nat) : Int)
  let roomNo := g r ((hc.room.getD 0 : Nat) : Int)
  if sec = "" || subj = "" || teach = "" || day = none || timeVal = "" then acc
  else
    match normalizeTimeSlot timeVal with
    | none => acc
    | some norm =>
      let room := (if floor ≠ "" then floor ++ " " else "") ++
        (if roomNo ≠ "" then "Room " ++ roomNo else "Unknown Room")
      let conf : ℚ := if roomNo = "" then 1 - 3/10 else 1
      (acc.1 ++ [{ day := day.getD ""
                   time := norm.1 ++ " – " ++ norm.2
                   startTime := norm.1
                   endTime := norm.2
                   subject := subj
                   teacher := teach
                   room := room
                   «section» := sec
                   confidence := conf }],
       acc.2.1 + conf, acc.2.2 + 1)

/-- Model of `parseColumnBasedDays` (route.ts:475–547). -/
def parseColumnBasedDays (rng : CellRange) (g : Int → Int → String) : ParseResult :=
  let hdr := findHeaderRow rng g
  match hdr.2 with
  | none => ⟨[], "column-based", 0⟩
  | some headerRow =>
    let fin := (natRangeIncl (headerRow + 1) rng.er).foldl (columnBasedRow hdr.1 g)
      ([], 0, 0)
    ⟨fin.1, "column-based", if fin.2.2 ≠ 0 then fin.2.1 / (fin.2.2 : ℚ) else 0⟩

/-! ## Strategy 3: `parsePerSheetSections` (route.ts:549–639) -/

/-- One `(time row × day column)` emission of `parsePerSheetSections`
(route.ts:605–631). -/
def perSheetCell (sheetSections : List String) (norm : String × String)
    (g : Int → Int → String) (r : Nat)
    (acc : List LectureEntry × ℚ × Nat × RegexCursors) (dc : Nat × String) :
    List LectureEntry × ℚ × Nat × RegexCursors :=
  let cellVal := g r (dc.1 : Int)
  if cellVal = "" || isSkippable cellVal then acc
  else
    let pcr := parseCellSt cellVal g r dc.1 acc.2.2.2
    let pc := pcr.1
    let finalSections := if pc.sections ≠ [] then pc.sections else sheetSections
    if finalSections = [] then (acc.1, acc.2.1, acc.2.2.1, pcr.2)
    else
      let roomN := normalizeRoomName cellVal
      let room := if roomN ≠ "" then roomN else "Unknown Room"
      let roomConfidence : ℚ := if room ≠ "Unknown Room" then 1 else 1/2
      let newEntries := finalSections.map (fun sec =>
        { day := dc.2
          time := norm.1 ++ " – " ++ norm.2
          startTime := norm.1
          endTime := norm.2
          subject := pc.subject
          teacher := pc.teacher
          room := room
          «section» := sec
          confidence := pc.confidence * roomConfidence : LectureEntry })
      (acc.1 ++ newEntries,
       acc.2.1 + finalSections.length * (pc.confidence * roomConfidence),
       acc.2.2.1 + finalSections.length, pcr.2)

/-- One row of the per-sheet emission loop (route.ts:598–632). -/
def perSheetRow (sheetSections : List String) (dayColumns : List (Nat × String))
    (timeCol : Nat) (g : Int → Int → String)
    (acc : List LectureEntry × ℚ × Nat × RegexCursors) (r : Nat) :
    List LectureEntry × ℚ × Nat × RegexCursors :=
  let timeVal := g r (timeCol : Int)
  if timeVal = "" || !isLikelyTimeSlot timeVal then acc
  else
    match normalizeTimeSlot timeVal with
    | none => acc
    | some norm => dayColumns.foldl (perSheetCell sheetSections norm g r) acc

/-- Model of `parsePerSheetSections` (route.ts:549–639).  The sheet (tab) name is
scanned for section codes with `extractAllSections`, which reads the shared
SECTION cursor. -/
def parsePerSheetSectionsSt (rng : CellRange) (g : Int → Int → String)
    (sheetName : String) (rst : RegexCursors) : ParseResult × RegexCursors :=
  let sheetSections := extractAllSectionsSt sheetName rst.sec
  if sheetSections = [] then (⟨[], "per-sheet", 0⟩, rst)
  else
    let hdr := (natRangeIncl rng.sr (min (rng.sr + 10) rng.er)).findSome?
      (fun (r : Nat) =>
        let cols := (natRangeIncl rng.sc rng.ec).filterMap (fun (c : Nat) =>
          let v := g r c
          if v ≠ "" then (normalizeDayName v).map (fun d => (c, d)) else none)
        if 3 ≤ cols.length then some (r, cols) else none)
    match hdr with
    | none => (⟨[], "per-sheet", 0⟩, rst)
    | some (headerRow, dayColumns) =>
      let firstDayCol := match dayColumns.head? with
                         | some p => p.1
                         | none => rng.ec
      let timeCol := (natRangeExcl rng.sc firstDayCol).findSome? (fun (c : Nat) =>
        let cnt := ((natRangeIncl (headerRow + 1) rng.er).filter (fun (r : Nat) =>
          let v := g r c
          !(v == "") && isLikelyTimeSlot v)).length
        if 2 ≤ cnt then some c else none)
      match timeCol with
      | none => (⟨[], "per-sheet", 0⟩, rst)
      | some tc =>
        let fin := (natRangeIncl (headerRow + 1) rng.er).foldl
          (perSheetRow sheetSections dayColumns tc g) ([], 0, 0, rst)
        (⟨fin.1, "per-sheet",
           if fin.2.2.1 ≠ 0 then fin.2.1 / (fin.2.2.1 : ℚ) else 0⟩, fin.2.2.2)

/-! ## Strategy 4: `parseBruteForce` (route.ts:641–747) -/

/-- The classified cells of the first brute-force pass (route.ts:650–682). -/
structure BFCells where
  days : List (Nat × Nat × String)
  times : List (Nat × Nat × String × String)
  rooms : List (Nat × Nat × String)
  datas : List (Nat × Nat × String)
deriving Repr

/-- Classify a single cell in the first pass.  `extractAllSections` reads
the shared SECTION cursor (`secLi`) but writes nothing. -/
def bfClassifyCell (g : Int → Int → String) (secLi : Nat) (acc : BFCells)
    (rc : Nat × Nat) : BFCells :=
  let v := g rc.1 rc.2
  if v = "" || isSkippable v then acc
  else
    match normalizeDayName v with
    | some d => { acc with days := acc.days ++ [(rc.1, rc.2, d)] }
    | none =>
      if isLikelyTimeSlot v then
        match normalizeTimeSlot v with
        | some p => { acc with times := acc.times ++ [(rc.1, rc.2, p.1, p.2)] }
        | none => acc
      else if isLikelyRoom v then
        { acc with rooms := acc.rooms ++ [(rc.1, rc.2, normalizeRoomName v)] }
      else if extractAllSectionsSt v secLi ≠ [] then
        { acc with datas := acc.datas ++ [(rc.1, rc.2, v)] }
      else acc

/-- Weighted taxicab distance `|Δr|*rowW + |Δc|` (route.ts:691, 702, 714). -/
def bfDist (rowW : Nat) (r1 c1 r2 c2 : Nat) : Nat :=
  ((r1 : Int) - r2).natAbs * rowW + ((c1 : Int) - c2).natAbs

/-- Process one data cell of the second pass (route.ts:684–740). -/
def bfDataCell (cls : BFCells) (g : Int → Int → String)
    (acc : List LectureEntry × ℚ × Nat × RegexCursors) (dc : Nat × Nat × String) :
    List LectureEntry × ℚ × Nat × RegexCursors :=
  let pcr := parseCellSt dc.2.2 g dc.1 dc.2.1 acc.2.2.2
  let pc := pcr.1
  let acc' := (acc.1, acc.2.1, acc.2.2.1, pcr.2)
  if pc.sections = [] then acc'
  else
    let bd := cls.days.foldl (fun (b : String × Option Nat) d =>
      let dist := bfDist 10 d.1 d.2.1 dc.1 dc.2.1
      -- `b.2 = none` models the `Infinity` initial best distance
      if d.1 ≤ dc.1 && dist < b.2.getD (dist + 1) then (d.2.2, some dist) else b)
      ("", none)
    let bt := cls.times.foldl (fun (b : String × String × Option Nat) t =>
      let dist := bfDist 5 t.1 t.2.1 dc.1 dc.2.1
      if dist < b.2.2.getD (dist + 1) then (t.2.2.1, t.2.2.2, some dist) else b)
      ("", "", none)
    let br := cls.rooms.foldl (fun (b : String × Option Nat) rm =>
      let dist := bfDist 10 rm.1 rm.2.1 dc.1 dc.2.1
      if dist < b.2.getD (dist + 1) then (rm.2.2, some dist) else b)
      ("", none)
    let roomConfidence : ℚ := if br.1 = "" then 1 - 1/2 else 1
    if bd.1 = "" || bt.1 = "" then acc'
    else
      let conf := pc.confidence * roomConfidence
      let newEntries := pc.sections.map (fun sec =>
        { day := bd.1
          time := bt.1 ++ " – " ++ bt.2.1
          startTime := bt.1
          endTime := bt.2.1
          subject := pc.subject
          teacher := pc.teacher
          room := if br.1 ≠ "" then br.1 else "Unknown Room"
          «section» := sec
          confidence := conf : LectureEntry })
      (acc.1 ++ newEntries,
       acc.2.1 + pc.sections.length * conf,
       acc.2.2.1 + pc.sections.length, pcr.2)

/-- Model of `parseBruteForce` (route.ts:641–747). -/
def parseBruteForceSt (rng : CellRange) (g : Int → Int → String)
    (rst : RegexCursors) : ParseResult × RegexCursors :=
  let cells := (natRangeIncl rng.sr rng.er).flatMap (fun r =>
    (natRangeIncl rng.sc rng.ec).map (fun c => (r, c)))
  let cls := cells.foldl (bfClassifyCell g rst.sec) ⟨[], [], [], []⟩
  let fin := cls.datas.foldl (bfDataCell cls g) ([], 0, 0, rst)
  (⟨fin.1, "brute-force",
     if fin.2.2.1 ≠ 0 then fin.2.1 / (fin.2.2.1 : ℚ) else 0⟩, fin.2.2.2)

/-! ## Arbitration and post-processing pipeline (route.ts:817–883) -/

/-- One step of the arbitration loop (route.ts:818–823): replace the best
result when the candidate has strictly more entries, or the same number of
entries and strictly higher average confidence. -/
def betterResult (best r : ParseResult) : ParseResult :=
  if best.entries.length < r.entries.length ||
     (r.entries.length = best.entries.length && best.avgConfidence < r.avgConfidence)
  then r else best

/-- The arbitration fold (route.ts:817–823), starting from the sentinel
`{ entries: [], strategyName: "none", avgConfidence: 0 }`. -/
def selectBestResult (results : List ParseResult) : ParseResult :=
  results.foldl betterResult ⟨[], "none", 0⟩

/-- The deduplication key `section|day|startTime|subject|teacher|room`
(route.ts:831). -/
def dedupKeyOf (e : LectureEntry) : String :=
  e.«section» ++ "|" ++ e.day ++ "|" ++ e.startTime ++ "|" ++ e.subject ++ "|" ++
    e.teacher ++ "|" ++ e.room

/-- The `seen`-set filter of route.ts:829–835: keep the first entry bearing
each key. -/
def dedupEntriesAux (seen : List String) : List LectureEntry → List LectureEntry
  | [] => []
  | e :: rest =>
    if seen.contains (dedupKeyOf e) then dedupEntriesAux seen rest
    else e :: dedupEntriesAux (dedupKeyOf e :: seen) rest

def dedupEntries (l : List LectureEntry) : List LectureEntry := dedupEntriesAux [] l

/-- Model of `DAY_ORDER` (route.ts:43–45) as a partial map; `none` is the JS
`undefined` (whose arithmetic gives `NaN`). -/
def dayOrderOf (d : String) : Option Int :=
  if d = "Monday" then some 0 else if d = "Tuesday" then some 1
  else if d = "Wednesday" then some 2 else if d = "Thursday" then some 3
  else if d = "Friday" then some 4 else if d = "Saturday" then some 5
  else if d = "Sunday" then some 6 else none

/-- NaN-propagating subtraction for the sort comparator. -/
def jsSub : Option Int → Option Int → Option Int
  | some a, some b => some (a - b)
  | _, _ => none

/-- The sort comparator of route.ts:837–841.  A `NaN` comparator value is
treated as 0 by `Array.prototype.sort` (the elements compare as equal). -/
def sortCmpVal (a b : LectureEntry) : Option Int :=
  let d := jsSub (dayOrderOf a.day) (dayOrderOf b.day)
  if d ≠ some 0 then d
  else jsSub (time12ToMinutes a.startTime) (time12ToMinutes b.startTime)

def entryLE (a b : LectureEntry) : Bool := (sortCmpVal a b).getD 0 ≤ 0

/-- Ordered insertion used to model `Array.prototype.sort` (which, with a
consistent comparator, returns an array sorted with respect to it). -/
def insertOrd (le : LectureEntry → LectureEntry → Bool) (x : LectureEntry) :
    List LectureEntry → List LectureEntry
  | [] => [x]
  | y :: ys => if le x y then x :: y :: ys else y :: insertOrd le x ys

def sortOrd (le : LectureEntry → LectureEntry → Bool) :
    List LectureEntry → List LectureEntry
  | [] => []
  | x :: xs => insertOrd le x (sortOrd le xs)

/-- The pipeline sort step `unique.sort(...)` (route.ts:837–841). -/
def sortEntries (l : List LectureEntry) : List LectureEntry := sortOrd entryLE l

/-- The section filter (route.ts:843–845); the filter string is already
upper-cased and trimmed by the caller. -/
def filterBySection (sectionFilter : String) (l : List LectureEntry) :
    List LectureEntry :=
  if sectionFilter = "" then l
  else l.filter (fun e => e.«section» == sectionFilter)

/-- Field equality guard of `mergeConsecutiveClasses` (route.ts:279–284). -/
def sameClassB (a b : LectureEntry) : Bool :=
  a.«section» == b.«section» && a.day == b.day && a.subject == b.subject &&
    a.teacher == b.teacher && a.room == b.room

/-- Back-to-back guard (route.ts:286): the JS `===` on two `NaN`s is false,
hence the `none` cases are not consecutive. -/
def consecutiveB (a b : LectureEntry) : Bool :=
  match time12ToMinutes a.endTime, time12ToMinutes b.startTime with
  | some x, some y => x == y
  | _, _ => false

/-- The merged running entry (route.ts:289–291). -/
def mergeInto (cur next : LectureEntry) : LectureEntry :=
  { cur with
    endTime := next.endTime
    time := cur.startTime ++ " – " ++ next.endTime
    confidence := min cur.confidence next.confidence }

/-- The walk of route.ts:276–299 with running entry `cur`. -/
def mergeGo (cur : LectureEntry) : List LectureEntry → List LectureEntry
  | [] => [cur]
  | next :: rest =>
    if sameClassB cur next && consecutiveB cur next then
      mergeGo (mergeInto cur next) rest
    else cur :: mergeGo next rest

/-- Model of `mergeConsecutiveClasses` (route.ts:270–300). -/
def mergeConsecutiveClasses : List LectureEntry → List LectureEntry
  | [] => []
  | e :: rest => mergeGo e rest

/-! ## Cell resolver `getMergedCellValue` (route.ts:791–809) -/

/-- Does `(r, c)` lie in merged region `m` without being its origin?  These
are exactly the addresses entered into the `mergeMap` (route.ts:791–800). -/
def memNonOrigin (m : CellRange) (r c : Int) : Bool :=
  decide ((m.sr : Int) ≤ r ∧ r ≤ (m.er : Int) ∧ (m.sc : Int) ≤ c ∧ c ≤ (m.ec : Int) ∧
    ¬(r = (m.sr : Int) ∧ c = (m.sc : Int)))

/-- Model of `mergeMap.get(r + "," + c)`: the `Map` is filled by iterating the merge
list in order, so for overlapping regions the last write wins. -/
def mergeLookup (merges : List CellRange) (r c : Int) : Option (Nat × Nat) :=
  ((merges.filter (fun m => memNonOrigin m r c)).getLast?).map (fun m => (m.sr, m.sc))

/-- Model of `getMergedCellValue` (route.ts:802–809).  `cells` gives the raw sheet
cell values (`none` for an absent / null cell); string coercion of the
stored value is implicit since cell values are modelled as text. -/
def getMergedCellValue (merges : List CellRange) (cells : Int → Int → Option String)
    (r c : Int) : String :=
  let target : Int × Int := match mergeLookup merges r c with
                            | some p => ((p.1 : Int), (p.2 : Int))
                            | none => (r, c)
  match cells target.1 target.2 with
  | some v => strTrim v
  | none => ""

/-! ## Spec-side comparison definitions and concrete fixtures -/

/-- Modelled from the claim wording of C9: `normalizeTimeSlot` with the
hour rule read literally as "adds 12 to any raw hour in 1–7". -/
def normalizeTimeSlotClaim (raw : String) : Option (String × String) :=
  normTimeWith (fun h => if 1 ≤ h && h ≤ 7 then h + 12 else h) raw

/-- Modelled from the amended wording of C9: the rule applies to raw hours
0–7. -/
def normalizeTimeSlotAmended (raw : String) : Option (String × String) :=
  normTimeWith (fun h => if 0 ≤ h && h ≤ 7 then h + 12 else h) raw

/-- A small sheet for the room-row strategy: a `Monday` marker and two time
headers in row 0, a room label and one multi-line class cell (with two
section codes) in row 1. -/
def gridTwoSections : Int → Int → String := fun r c =>
  if r = 0 && c = 0 then "Monday"
  else if r = 0 && c = 1 then "8:00-9:30"
  else if r = 0 && c = 2 then "9:30-11:00"
  else if r = 1 && c = 0 then "Room 101"
  else if r = 1 && c = 1 then "Data Structures\nMr. Ahmed\nBSSE-4C BSAI-7A"
  else ""

def rangeTwoSections : CellRange := ⟨0, 0, 1, 2⟩

/-- Fixture: Monday 8:00–9:30 lecture. -/
def entryA : LectureEntry :=
  ⟨"Monday", "8:00 AM – 9:30 AM", "8:00 AM", "9:30 AM", "X", "Y", "Z", "BSSE-4C", 1⟩

/-- Fixture: the back-to-back Monday 9:30–11:00 lecture with the same
subject/teacher/room. -/
def entryB : LectureEntry :=
  ⟨"Monday", "9:30 AM – 11:00 AM", "9:30 AM", "11:00 AM", "X", "Y", "Z", "BSSE-4C", 3/4⟩

/-- Fixture: as `entryB` but in a different room. -/
def entryBroom : LectureEntry :=
  ⟨"Monday", "9:30 AM – 11:00 AM", "9:30 AM", "11:00 AM", "X", "Y", "Z2", "BSSE-4C", 3/4⟩

/-- Fixture: as `entryB` but on Tuesday (for the sort witness). -/
def entryTueB : LectureEntry :=
  ⟨"Tuesday", "9:00 AM – 10:30 AM", "9:00 AM", "10:30 AM", "X", "Y", "Z", "BSSE-4C", 1⟩

/-- Fixture: a strategy result with one entry and average confidence 1. -/
def resHigh : ParseResult := ⟨[entryA], "room-row", 1⟩

/-- Fixture: a strategy result with one entry and average confidence 0. -/
def resLow : ParseResult := ⟨[entryTueB], "brute-force", 0⟩

/-- Fixture: a 2×2 merged region rooted at the origin. -/
def mergesFix : List CellRange := [⟨0, 0, 1, 1⟩]

/-- Fixture: a tiny sheet holding an (untrimmed) origin value and one plain
cell. -/
def cellsFix : Int → Int → Option String := fun r c =>
  if r = 0 && c = 0 then some " Origin " else if r = 2 && c = 2 then some "Own" else none

/-- Fixture: the room-row scan state active at row 1 of
`gridTwoSections` (day and time headers already collected, clean regex
cursors). -/
def rrStateFix : RRState :=
  ⟨"Monday",
    [⟨1, "8:00-9:30", "8:00 AM", "9:30 AM"⟩, ⟨2, "9:30-11:00", "9:30 AM", "11:00 AM"⟩],
    [], 0, 0, ⟨0, 0⟩⟩

/-- Fixture: the first time-slot column of `gridTwoSections`. -/
def tsFix : TimeSlotInfo := ⟨1, "8:00-9:30", "8:00 AM", "9:30 AM"⟩

/-- Fixture: the entry the two-section cell produces for `BSSE-4C`. -/
def entryDS1 : LectureEntry :=
  ⟨"Monday", "8:00 AM – 9:30 AM", "8:00 AM", "9:30 AM", "Data Structures", "Mr. Ahmed",
    "Room #101", "BSSE-4C", 1⟩

/-- Fixture: the entry the two-section cell produces for `BSAI-7A`. -/
def entryDS2 : LectureEntry :=
  ⟨"Monday", "8:00 AM – 9:30 AM", "8:00 AM", "9:30 AM", "Data Structures", "Mr. Ahmed",
    "Room #101", "BSAI-7A", 1⟩

/-! ## C1 -/

/-- C1 (amended positive part): `parseCell` is a pure function of its
arguments together with the two module-level regex `lastIndex` cursors; in
particular its `sections` output is exactly the section extraction of the
cell text at the incoming `SECTION_PATTERN` cursor, and from zeroed cursors
it is the clean `extractAllSections`. -/
theorem parseCell_pure_given_cursors :
    ∀ (cellText : String) (g : Int → Int → String) (row col : Int) (st : RegexCursors),
      ((parseCellSt cellText g row col st).1).sections =
          extractAllSectionsSt cellText st.sec ∧
        ((parseCellSt cellText g row col ⟨0, 0⟩).1).sections =
          extractAllSections cellText := by
  intro cellText g row col st
  exact ⟨rfl, rfl⟩

/-- C1 (counterexample): calling `parseCell` twice with identical arguments
is NOT guaranteed to return identical results — the first call leaves the
global `SECTION_PATTERN.lastIndex` at 25 (its `test` on the single line
succeeded), which makes the second call's `matchAll` miss the section code
and changes subject and confidence as well. -/
theorem parseCell_impure_counterexample :
    (parseCellSt "Linear Algebra II BSSE-4C" (fun _ _ => "") 5 5 ⟨0, 0⟩).1 ≠
      (parseCellSt "Linear Algebra II BSSE-4C" (fun _ _ => "") 5 5
        (parseCellSt "Linear Algebra II BSSE-4C" (fun _ _ => "") 5 5 ⟨0, 0⟩).2).1 := by
  decide

/-! ## C3 -/

/-- C3: `mergeConsecutiveClasses` merges a pair exactly when section, day,
subject, teacher and room agree and the running end time equals the next
start time, extending end time and label and taking the minimum confidence;
concretely, back-to-back Monday 8:00AM–9:30AM and 9:30AM–11:00AM entries
with identical fields merge into one 8:00AM–11:00AM entry, while the same
pair differing only in room stays unmerged. -/
theorem mergeConsecutive_rule :
    (∀ e1 e2 : LectureEntry,
        mergeConsecutiveClasses [e1, e2] =
          if sameClassB e1 e2 && consecutiveB e1 e2 then [mergeInto e1 e2]
          else [e1, e2]) ∧
      mergeConsecutiveClasses [entryA, entryB] =
        [{ entryA with
            endTime := "11:00 AM"
            time := "8:00 AM – 11:00 AM"
            confidence := 3/4 }] ∧
      mergeConsecutiveClasses [entryA, entryBroom] = [entryA, entryBroom] := by
  refine ⟨fun e1 e2 => ?_, by decide, by decide⟩
  by_cases h : (sameClassB e1 e2 && consecutiveB e1 e2) = true <;>
    simp [mergeConsecutiveClasses, mergeGo, h]

/-! ## C5 -/

/-- Every entry surviving `dedupEntriesAux seen l` has a key outside
`seen`. -/
theorem dedupAux_notSeen :
    ∀ (l : List LectureEntry) (seen : List String),
      ∀ e ∈ dedupEntriesAux seen l, seen.contains (dedupKeyOf e) = false := by
  intro l
  induction l with
  | nil => intro seen e he; simp [dedupEntriesAux] at he
  | cons x rest ih =>
    intro seen e he
    cases hx : seen.contains (dedupKeyOf x) with
    | true =>
      simp only [dedupEntriesAux, hx, if_true] at he
      exact ih seen e he
    | false =>
      simp only [dedupEntriesAux, hx, Bool.false_eq_true, if_false] at he
      rcases List.mem_cons.1 he with rfl | he
      · exact hx
      · have h2 := ih (dedupKeyOf x :: seen) e he
        simp only [List.contains_cons, Bool.or_eq_false_iff] at h2
        exact h2.2

/-- The keys of a deduplicated list are pairwise distinct. -/
theorem dedupAux_nodupKeys :
    ∀ (l : List LectureEntry) (seen : List String),
      ((dedupEntriesAux seen l).map dedupKeyOf).Nodup := by
  intro l
  induction l with
  | nil => intro seen; simp [dedupEntriesAux]
  | cons x rest ih =>
    intro seen
    cases hx : seen.contains (dedupKeyOf x) with
    | true => simp only [dedupEntriesAux, hx, if_true]; exact ih seen
    | false =>
      simp only [dedupEntriesAux, hx, Bool.false_eq_true, if_false, List.map_cons,
        List.nodup_cons]
      refine ⟨?_, ih (dedupKeyOf x :: seen)⟩
      intro hmem
      rcases List.mem_map.1 hmem with ⟨e, he, hkey⟩
      have h2 := dedupAux_notSeen rest (dedupKeyOf x :: seen) e he
      simp only [List.contains_cons, Bool.or_eq_false_iff, beq_eq_false_iff_ne] at h2
      exact h2.1 hkey

/-- Deduplication does nothing on a list whose keys avoid `seen` and are
pairwise distinct. -/
theorem dedupAux_fixed :
    ∀ (l : List LectureEntry) (seen : List String),
      (∀ e ∈ l, seen.contains (dedupKeyOf e) = false) →
      ((l.map dedupKeyOf).Nodup) → dedupEntriesAux seen l = l := by
  intro l
  induction l with
  | nil => intro seen _ _; rfl
  | cons x rest ih =>
    intro seen hseen hnd
    have hx : seen.contains (dedupKeyOf x) = false := hseen x (by simp)
    simp only [dedupEntriesAux, hx, Bool.false_eq_true, if_false]
    simp only [List.map_cons, List.nodup_cons] at hnd
    congr 1
    refine ih (dedupKeyOf x :: seen) ?_ hnd.2
    intro e he
    simp only [List.contains_cons, Bool.or_eq_false_iff, beq_eq_false_iff_ne]
    refine ⟨?_, hseen e (by simp [he])⟩
    intro hkey
    exact hnd.1 (hkey ▸ List.mem_map_of_mem dedupKeyOf he)

/-- C5: the first-occurrence-wins deduplication on the key
`section|day|startTime|subject|teacher|room` is idempotent. -/
theorem dedup_idempotent :
    ∀ l : List LectureEntry, dedupEntries (dedupEntries l) = dedupEntries l := by
  intro l
  exact dedupAux_fixed _ _ (fun e _ => rfl) (dedupAux_nodupKeys l [])

/-! ## C2: confidence bounds -/

/-- Fold invariant preservation. -/
theorem foldlInv {α β : Type} (P : β → Prop) (f : β → α → β)
    (hf : ∀ s a, P s → P (f s a)) :
    ∀ (l : List α) (b : β), P b → P (l.foldl f b) := by
  intro l
  induction l with
  | nil => intro b hb; exact hb
  | cons x xs ih => intro b hb; exact ih (f b x) (hf b x hb)

/-- The subject penalty is 0, 0.25 or 0.5. -/
theorem subjFallback_penalty (s0 : List Char) (l a : String) :
    (subjFallback s0 l a).2 = 0 ∨ (subjFallback s0 l a).2 = 1/4 ∨
      (subjFallback s0 l a).2 = 1/2 := by
  unfold subjFallback; split_ifs <;> simp

/-- The teacher penalty is 0, 0.2 or 0.5. -/
theorem teachFallback_penalty (t0 : List Char) (r b : String) :
    (teachFallback t0 r b).2 = 0 ∨ (teachFallback t0 r b).2 = 1/5 ∨
      (teachFallback t0 r b).2 = 1/2 := by
  unfold teachFallback; split_ifs <;> simp

/-- The `parseCell` confidence starts at 1 and after the two penalties stays in
`[0, 1]`. -/
theorem parseCell_conf_bounds (cellText : String) (g : Int → Int → String)
    (row col : Int) (st : RegexCursors) :
    0 ≤ ((parseCellSt cellText g row col st).1).confidence ∧
      ((parseCellSt cellText g row col st).1).confidence ≤ 1 := by
  have he : ((parseCellSt cellText g row col st).1).confidence =
      1 - (subjFallback (parseCellScan cellText st).1.1 (g row (col - 1)) (g (row - 1) col)).2
        - (teachFallback (parseCellScan cellText st).1.2 (g row (col + 1)) (g (row + 1) col)).2 :=
    rfl
  rw [he]
  rcases subjFallback_penalty (parseCellScan cellText st).1.1 (g row (col - 1)) (g (row - 1) col)
    with h | h | h <;>
    rcases teachFallback_penalty (parseCellScan cellText st).1.2 (g row (col + 1)) (g (row + 1) col)
      with k | k | k <;>
    rw [h, k] <;> norm_num

/-- Lemma: `roomRowCell` preserves boundedness of accumulated confidences. -/
theorem roomRowCell_pres (r : Nat) (day room : String) (g : Int → Int → String)
    (s : RRState) (ts : TimeSlotInfo)
    (hs : ∀ x ∈ s.entries, 0 ≤ x.confidence ∧ x.confidence ≤ 1) :
    ∀ x ∈ (roomRowCell r day room g s ts).entries,
      0 ≤ x.confidence ∧ x.confidence ≤ 1 := by
  intro x hx
  simp only [roomRowCell] at hx
  split at hx
  · exact hs x hx
  · split at hx
    · exact hs x hx
    · simp only [List.mem_append, List.mem_map] at hx
      rcases hx with hx | ⟨sec, _, rfl⟩
      · exact hs x hx
      · exact parseCell_conf_bounds _ _ _ _ _

/-- Folding `roomRowCell` over the active time slots preserves
boundedness. -/
theorem roomRowCells_pres (r : Nat) (day room : String) (g : Int → Int → String)
    (ts : List TimeSlotInfo) (s : RRState)
    (hs : ∀ x ∈ s.entries, 0 ≤ x.confidence ∧ x.confidence ≤ 1) :
    ∀ x ∈ (ts.foldl (roomRowCell r day room g) s).entries,
      0 ≤ x.confidence ∧ x.confidence ≤ 1 :=
  foldlInv (fun (st2 : RRState) => ∀ y ∈ st2.entries, 0 ≤ y.confidence ∧ y.confidence ≤ 1)
    (roomRowCell r day room g) (fun st2 a h2 => roomRowCell_pres r day room g st2 a h2)
    ts s hs

/-- Lemma: `roomRowRow` preserves boundedness. -/
theorem roomRowRow_pres (rng : CellRange) (g : Int → Int → String)
    (s : RRState) (r : Nat)
    (hs : ∀ x ∈ s.entries, 0 ≤ x.confidence ∧ x.confidence ≤ 1) :
    ∀ x ∈ (roomRowRow rng g s r).entries, 0 ≤ x.confidence ∧ x.confidence ≤ 1 := by
  intro x hx
  simp only [roomRowRow] at hx
  split at hx
  · exact hs x hx
  · split at hx
    · exact hs x hx
    · split at hx
      · exact hs x hx
      · refine roomRowCells_pres r _ _ g s.slots _ ?_ x hx
        exact hs

/-- Confidence bounds for every entry of `parseRoomRowLayout`. -/
theorem roomRow_conf_bounds (rng : CellRange) (g : Int → Int → String)
    (st : RegexCursors) :
    ∀ e ∈ ((parseRoomRowLayoutSt rng g st).1).entries,
      0 ≤ e.confidence ∧ e.confidence ≤ 1 := by
  intro e he
  exact foldlInv (fun s => ∀ y ∈ s.entries, 0 ≤ y.confidence ∧ y.confidence ≤ 1)
    (roomRowRow rng g) (fun s a h => roomRowRow_pres rng g s a h)
    (natRangeIncl rng.sr rng.er) ⟨"", [], [], 0, 0, st⟩ (by intro y hy; cases hy) e he

/-- Lemma: `columnBasedRow` preserves boundedness. -/
theorem columnBasedRow_pres (hc : HeaderCols) (g : Int → Int → String)
    (acc : List LectureEntry × ℚ × Nat) (r : Nat)
    (hacc : ∀ x ∈ acc.1, 0 ≤ x.confidence ∧ x.confidence ≤ 1) :
    ∀ x ∈ (columnBasedRow hc g acc r).1, 0 ≤ x.confidence ∧ x.confidence ≤ 1 := by
  intro x hx
  simp only [columnBasedRow] at hx
  split at hx
  · exact hacc x hx
  · split at hx
    · exact hacc x hx
    · simp only [List.mem_append, List.mem_singleton] at hx
      rcases hx with hx | rfl
      · exact hacc x hx
      · dsimp only
        constructor <;> split_ifs <;> norm_num

/-- Confidence bounds for every entry of `parseColumnBasedDays`. -/
theorem columnBased_conf_bounds (rng : CellRange) (g : Int → Int → String) :
    ∀ e ∈ (parseColumnBasedDays rng g).entries,
      0 ≤ e.confidence ∧ e.confidence ≤ 1 := by
  intro e he
  simp only [parseColumnBasedDays] at he
  split at he
  · cases he
  · exact foldlInv
      (fun (a : List LectureEntry × ℚ × Nat) => ∀ y ∈ a.1, 0 ≤ y.confidence ∧ y.confidence ≤ 1)
      _ (fun a r h2 => columnBasedRow_pres _ g a r h2) _ _ (by intro y hy; cases hy) e he

/-- Product of a `parseCell` confidence with a room factor in `{1, 1/2}`
stays in `[0, 1]`. -/
theorem conf_mul_bounds (c f : ℚ) (hc : 0 ≤ c ∧ c ≤ 1) (hf : f = 1 ∨ f = 1/2) :
    0 ≤ c * f ∧ c * f ≤ 1 := by
  rcases hf with rfl | rfl
  · constructor <;> nlinarith [hc.1, hc.2]
  · constructor <;> nlinarith [hc.1, hc.2]

/-- Lemma: `perSheetCell` preserves boundedness. -/
theorem perSheetCell_pres (ss : List String) (norm : String × String)
    (g : Int → Int → String) (r : Nat)
    (acc : List LectureEntry × ℚ × Nat × RegexCursors) (dc : Nat × String)
    (hacc : ∀ x ∈ acc.1, 0 ≤ x.confidence ∧ x.confidence ≤ 1) :
    ∀ x ∈ (perSheetCell ss norm g r acc dc).1, 0 ≤ x.confidence ∧ x.confidence ≤ 1 := by
  intro x hx
  simp only [perSheetCell] at hx
  repeat' split at hx
  all_goals
    first
      | exact hacc x hx
      | (simp only [List.mem_append, List.mem_map] at hx
         rcases hx with hx | ⟨sec, _, rfl⟩
         · exact hacc x hx
         · dsimp only
           refine conf_mul_bounds _ _ (parseCell_conf_bounds _ _ _ _ _) ?_
           first
             | (split_ifs <;> norm_num)
             | norm_num)

/-- Lemma: `perSheetRow` preserves boundedness. -/
theorem perSheetRow_pres (ss : List String) (dayCols : List (Nat × String))
    (tc : Nat) (g : Int → Int → String)
    (acc : List LectureEntry × ℚ × Nat × RegexCursors) (r : Nat)
    (hacc : ∀ x ∈ acc.1, 0 ≤ x.confidence ∧ x.confidence ≤ 1) :
    ∀ x ∈ (perSheetRow ss dayCols tc g acc r).1, 0 ≤ x.confidence ∧ x.confidence ≤ 1 := by
  intro x hx
  simp only [perSheetRow] at hx
  split at hx
  · exact hacc x hx
  · split at hx
    · exact hacc x hx
    · exact foldlInv
        (fun (a : List LectureEntry × ℚ × Nat × RegexCursors) =>
          ∀ y ∈ a.1, 0 ≤ y.confidence ∧ y.confidence ≤ 1)
        _ (fun a d h2 => perSheetCell_pres ss _ g r a d h2) dayCols acc hacc x hx

/-- Confidence bounds for every entry of `parsePerSheetSections`. -/
theorem perSheet_conf_bounds (rng : CellRange) (g : Int → Int → String)
    (sheetName : String) (st : RegexCursors) :
    ∀ e ∈ ((parsePerSheetSectionsSt rng g sheetName st).1).entries,
      0 ≤ e.confidence ∧ e.confidence ≤ 1 := by
  intro e he
  simp only [parsePerSheetSectionsSt] at he
  split at he
  · cases he
  · split at he
    · cases he
    · split at he
      · cases he
      · exact foldlInv
          (fun (a : List LectureEntry × ℚ × Nat × RegexCursors) =>
            ∀ y ∈ a.1, 0 ≤ y.confidence ∧ y.confidence ≤ 1)
          _ (fun a r h2 => perSheetRow_pres _ _ _ g a r h2) _ _
          (by intro y hy; cases hy) e he

/-- Lemma: `bfDataCell` preserves boundedness. -/
theorem bfDataCell_pres (cls : BFCells) (g : Int → Int → String)
    (acc : List LectureEntry × ℚ × Nat × RegexCursors) (dc : Nat × Nat × String)
    (hacc : ∀ x ∈ acc.1, 0 ≤ x.confidence ∧ x.confidence ≤ 1) :
    ∀ x ∈ (bfDataCell cls g acc dc).1, 0 ≤ x.confidence ∧ x.confidence ≤ 1 := by
  intro x hx
  simp only [bfDataCell] at hx
  repeat' split at hx
  all_goals
    first
      | exact hacc x hx
      | (simp only [List.mem_append, List.mem_map] at hx
         rcases hx with hx | ⟨sec, _, rfl⟩
         · exact hacc x hx
         · dsimp only
           refine conf_mul_bounds _ _ (parseCell_conf_bounds _ _ _ _ _) ?_
           first
             | (split_ifs <;> norm_num)
             | norm_num)

/-- Confidence bounds for every entry of `parseBruteForce`. -/
theorem bruteForce_conf_bounds (rng : CellRange) (g : Int → Int → String)
    (st : RegexCursors) :
    ∀ e ∈ ((parseBruteForceSt rng g st).1).entries,
      0 ≤ e.confidence ∧ e.confidence ≤ 1 := by
  intro e he
  exact foldlInv
    (fun (a : List LectureEntry × ℚ × Nat × RegexCursors) =>
      ∀ y ∈ a.1, 0 ≤ y.confidence ∧ y.confidence ≤ 1)
    _ (fun a d h2 => bfDataCell_pres _ g a d h2) _ _ (by intro y hy; cases hy) e he

/-- Deduplication only drops entries. -/
theorem dedupAux_subset :
    ∀ (l : List LectureEntry) (seen : List String) (e : LectureEntry),
      e ∈ dedupEntriesAux seen l → e ∈ l := by
  intro l
  induction l with
  | nil => intro seen e he; exact absurd he (by simp [dedupEntriesAux])
  | cons x rest ih =>
    intro seen e he
    cases hx : seen.contains (dedupKeyOf x) with
    | true =>
      simp only [dedupEntriesAux, hx, if_true] at he
      exact List.mem_cons_of_mem x (ih seen e he)
    | false =>
      simp only [dedupEntriesAux, hx, Bool.false_eq_true, if_false] at he
      rcases List.mem_cons.1 he with rfl | he
      · exact List.mem_cons_self e rest
      · exact List.mem_cons_of_mem x (ih _ e he)

/-- Membership is preserved by ordered insertion. -/
theorem mem_insertOrd (le : LectureEntry → LectureEntry → Bool) (x : LectureEntry) :
    ∀ (l : List LectureEntry) (y : LectureEntry),
      y ∈ insertOrd le x l ↔ y = x ∨ y ∈ l := by
  intro l
  induction l with
  | nil => intro y; simp [insertOrd]
  | cons z zs ih =>
    intro y
    simp only [insertOrd]
    split
    · simp [List.mem_cons]
    · simp only [List.mem_cons, ih]
      constructor
      · rintro (rfl | h); exact Or.inr (Or.inl rfl)
        rcases h with h | h
        · exact Or.inl h
        · exact Or.inr (Or.inr h)
      · rintro (h | h)
        · exact Or.inr (Or.inl h)
        · rcases h with rfl | h
          · exact Or.inl rfl
          · exact Or.inr (Or.inr h)

/-- Membership is preserved by the modelled sort. -/
theorem mem_sortOrd (le : LectureEntry → LectureEntry → Bool) :
    ∀ (l : List LectureEntry) (y : LectureEntry), y ∈ sortOrd le l ↔ y ∈ l := by
  intro l
  induction l with
  | nil => intro y; simp [sortOrd]
  | cons z zs ih =>
    intro y
    simp only [sortOrd, mem_insertOrd, ih, List.mem_cons]

/-- The consecutive-merge walk keeps every confidence inside bounds (the
merged confidence is the minimum of two bounded values). -/
theorem mergeGo_bounds :
    ∀ (rest : List LectureEntry) (cur : LectureEntry),
      (0 ≤ cur.confidence ∧ cur.confidence ≤ 1) →
      (∀ x ∈ rest, 0 ≤ x.confidence ∧ x.confidence ≤ 1) →
      ∀ x ∈ mergeGo cur rest, 0 ≤ x.confidence ∧ x.confidence ≤ 1 := by
  intro rest
  induction rest with
  | nil =>
    intro cur hc _ x hx
    rcases List.mem_singleton.1 hx with rfl
    exact hc
  | cons nxt rest2 ih =>
    intro cur hc hr x hx
    simp only [mergeGo] at hx
    split at hx
    · refine ih (mergeInto cur nxt) ?_ (fun y hy => hr y (List.mem_cons_of_mem nxt hy)) x hx
      have hn := hr nxt (List.mem_cons_self nxt rest2)
      constructor
      · exact le_min hc.1 hn.1
      · exact min_le_of_left_le hc.2
    · rcases List.mem_cons.1 hx with rfl | hx
      · exact hc
      · exact ih nxt (hr nxt (List.mem_cons_self nxt rest2))
          (fun y hy => hr y (List.mem_cons_of_mem nxt hy)) x hx

/-- C2: every Lecture Entry emitted by any of the four layout strategies
has confidence in `[0, 1]`; `parseCell` itself starts at 1.0, subtracts only
the subject/teacher penalties and never leaves `[0, 1]`, also after the
per-sheet / brute-force room-confidence products; and the confidence bound
is preserved through deduplication, sorting, filtering and
consecutive-merge. -/
theorem confidence_bounds :
    (∀ (cellText : String) (g : Int → Int → String) (row col : Int) (st : RegexCursors),
        0 ≤ ((parseCellSt cellText g row col st).1).confidence ∧
          ((parseCellSt cellText g row col st).1).confidence ≤ 1) ∧
      (∀ (rng : CellRange) (g : Int → Int → String) (st : RegexCursors),
          ∀ e ∈ ((parseRoomRowLayoutSt rng g st).1).entries,
            0 ≤ e.confidence ∧ e.confidence ≤ 1) ∧
      (∀ (rng : CellRange) (g : Int → Int → String),
          ∀ e ∈ (parseColumnBasedDays rng g).entries,
            0 ≤ e.confidence ∧ e.confidence ≤ 1) ∧
      (∀ (rng : CellRange) (g : Int → Int → String) (sheetName : String)
          (st : RegexCursors),
          ∀ e ∈ ((parsePerSheetSectionsSt rng g sheetName st).1).entries,
            0 ≤ e.confidence ∧ e.confidence ≤ 1) ∧
      (∀ (rng : CellRange) (g : Int → Int → String) (st : RegexCursors),
          ∀ e ∈ ((parseBruteForceSt rng g st).1).entries,
            0 ≤ e.confidence ∧ e.confidence ≤ 1) ∧
      (∀ (l : List LectureEntry) (sf : String),
          (∀ e ∈ l, 0 ≤ e.confidence ∧ e.confidence ≤ 1) →
          ∀ e ∈ mergeConsecutiveClasses (filterBySection sf (sortEntries (dedupEntries l))),
            0 ≤ e.confidence ∧ e.confidence ≤ 1) := by
  refine ⟨parseCell_conf_bounds, roomRow_conf_bounds, columnBased_conf_bounds,
    perSheet_conf_bounds, bruteForce_conf_bounds, ?_⟩
  intro l sf hl e he
  have hall : ∀ x ∈ filterBySection sf (sortEntries (dedupEntries l)),
      0 ≤ x.confidence ∧ x.confidence ≤ 1 := by
    intro x hx
    have hx2 : x ∈ sortEntries (dedupEntries l) := by
      unfold filterBySection at hx
      split at hx
      · exact hx
      · exact (List.mem_filter.1 hx).1
    have hx3 : x ∈ dedupEntries l := (mem_sortOrd entryLE _ x).1 hx2
    exact hl x (dedupAux_subset l [] x hx3)
  rcases hfl : filterBySection sf (sortEntries (dedupEntries l)) with _ | ⟨a, rest⟩
  · rw [hfl] at he
    cases he
  · rw [hfl] at he
    have ha := hall a (hfl ▸ List.mem_cons_self a rest)
    have hrest : ∀ y ∈ rest, 0 ≤ y.confidence ∧ y.confidence ≤ 1 := fun y hy =>
      hall y (hfl ▸ List.mem_cons_of_mem a hy)
    exact mergeGo_bounds rest a ha hrest e he

/-- Witness for C2: the theorem applied to the concrete singleton pipeline
run on `entryA`, all hypotheses discharged by evaluation. -/
theorem confidence_bounds_witness :
    0 ≤ entryA.confidence ∧ entryA.confidence ≤ 1 :=
  confidence_bounds.2.2.2.2.2 [entryA] "" (by decide) entryA (by decide)

/-! ## C4 -/

/-- The lexicographic entry-count / average-confidence preorder used by the
arbitration. -/
def lexLE (a b : ParseResult) : Prop :=
  a.entries.length < b.entries.length ∨
    (a.entries.length = b.entries.length ∧ a.avgConfidence ≤ b.avgConfidence)

theorem lexLE_refl (a : ParseResult) : lexLE a a := Or.inr ⟨rfl, le_refl _⟩

theorem lexLE_trans {a b c : ParseResult} (h1 : lexLE a b) (h2 : lexLE b c) :
    lexLE a c := by
  rcases h1 with h1 | ⟨h1, h1'⟩ <;> rcases h2 with h2 | ⟨h2, h2'⟩
  · exact Or.inl (h1.trans h2)
  · exact Or.inl (h2 ▸ h1)
  · exact Or.inl (h1 ▸ h2)
  · exact Or.inr ⟨h1.trans h2, h1'.trans h2'⟩

/-- One arbitration step keeps the running best lex-maximal. -/
theorem betterResult_ge_both (b r : ParseResult) :
    lexLE b (betterResult b r) ∧ lexLE r (betterResult b r) := by
  unfold betterResult
  split_ifs with h
  · refine ⟨?_, lexLE_refl r⟩
    simp only [Bool.or_eq_true, Bool.and_eq_true, decide_eq_true_eq] at h
    rcases h with h | ⟨h1, h2⟩
    · exact Or.inl h
    · exact Or.inr ⟨h1.symm, le_of_lt h2⟩
  · refine ⟨lexLE_refl b, ?_⟩
    simp only [Bool.or_eq_true, Bool.and_eq_true, decide_eq_true_eq, not_or, not_and] at h
    have hle : r.entries.length ≤ b.entries.length := Nat.le_of_not_lt h.1
    rcases Nat.lt_or_eq_of_le hle with hlt | heq
    · exact Or.inl hlt
    · exact Or.inr ⟨heq, le_of_not_lt (h.2 heq)⟩

/-- The arbitration fold dominates the initial value and every processed
result in the lexicographic order. -/
theorem selectBest_fold_max :
    ∀ (l : List ParseResult) (b : ParseResult),
      lexLE b (l.foldl betterResult b) ∧ ∀ r ∈ l, lexLE r (l.foldl betterResult b) := by
  intro l
  induction l with
  | nil => intro b; exact ⟨lexLE_refl b, by intro r hr; cases hr⟩
  | cons x xs ih =>
    intro b
    have hstep := betterResult_ge_both b x
    have hrec := ih (betterResult b x)
    refine ⟨lexLE_trans hstep.1 hrec.1, ?_⟩
    intro r hr
    rcases List.mem_cons.1 hr with rfl | hr
    · exact lexLE_trans hstep.2 hrec.1
    · exact hrec.2 r hr

/-- C4: arbitration selects a result whose entry count is maximal among all
collected Parse Results, and among equal entry counts its average
confidence is maximal; in particular, for two results with equal positive
entry counts and different average confidences, the higher-confidence one
is selected in either presentation order. -/
theorem arbitration_max :
    (∀ (results : List ParseResult) (r : ParseResult), r ∈ results →
        r.entries.length ≤ (selectBestResult results).entries.length) ∧
      (∀ (results : List ParseResult) (r : ParseResult), r ∈ results →
          r.entries.length = (selectBestResult results).entries.length →
          r.avgConfidence ≤ (selectBestResult results).avgConfidence) ∧
      (∀ r1 r2 : ParseResult, 0 < r1.entries.length →
          r1.entries.length = r2.entries.length →
          r2.avgConfidence < r1.avgConfidence →
          selectBestResult [r1, r2] = r1 ∧ selectBestResult [r2, r1] = r1) := by
  refine ⟨?_, ?_, ?_⟩
  · intro results r hr
    rcases (selectBest_fold_max results ⟨[], "none", 0⟩).2 r hr with h | ⟨h, _⟩
    · exact le_of_lt h
    · exact le_of_eq h
  · intro results r hr heq
    unfold selectBestResult at heq ⊢
    rcases (selectBest_fold_max results ⟨[], "none", 0⟩).2 r hr with h | ⟨h2, h⟩
    · omega
    · exact h
  · intro r1 r2 hpos heq hconf
    have h1 : betterResult ⟨[], "none", 0⟩ r1 = r1 := by
      unfold betterResult
      rw [if_pos]
      simp only [Bool.or_eq_true, Bool.and_eq_true, decide_eq_true_eq]
      exact Or.inl hpos
    have h2 : betterResult ⟨[], "none", 0⟩ r2 = r2 := by
      unfold betterResult
      rw [if_pos]
      simp only [Bool.or_eq_true, Bool.and_eq_true, decide_eq_true_eq]
      exact Or.inl (heq ▸ hpos)
    constructor
    · show betterResult (betterResult ⟨[], "none", 0⟩ r1) r2 = r1
      rw [h1]
      unfold betterResult
      rw [if_neg]
      simp only [Bool.or_eq_true, Bool.and_eq_true, decide_eq_true_eq, not_or, not_and]
      exact ⟨by omega, fun _ => not_lt_of_le (le_of_lt hconf)⟩
    · show betterResult (betterResult ⟨[], "none", 0⟩ r2) r1 = r1
      rw [h2]
      unfold betterResult
      rw [if_pos]
      simp only [Bool.or_eq_true, Bool.and_eq_true, decide_eq_true_eq]
      exact Or.inr ⟨heq, hconf⟩

/-- Witness for C4: the pairwise tie-break applied to the concrete results
`resHigh`/`resLow` (equal entry counts 1, confidences 1 vs 0). -/
theorem arbitration_max_witness :
    selectBestResult [resHigh, resLow] = resHigh ∧
      selectBestResult [resLow, resHigh] = resHigh :=
  arbitration_max.2.2 resHigh resLow (by decide) (by decide) (by decide)

/-! ## C6 -/

/-- Characterisation of the JS comparator on entries whose day is a known
weekday and whose start time parses: it is exactly the lexicographic
(day-order, minutes-since-midnight) order. -/
theorem entryLE_char (a b : LectureEntry)
    (ha : (dayOrderOf a.day).isSome ∧ (time12ToMinutes a.startTime).isSome)
    (hb : (dayOrderOf b.day).isSome ∧ (time12ToMinutes b.startTime).isSome) :
    entryLE a b = true ↔
      ((dayOrderOf a.day).getD 0 < (dayOrderOf b.day).getD 0 ∨
        ((dayOrderOf a.day).getD 0 = (dayOrderOf b.day).getD 0 ∧
          (time12ToMinutes a.startTime).getD 0 ≤ (time12ToMinutes b.startTime).getD 0)) := by
  obtain ⟨da, hda⟩ := Option.isSome_iff_exists.1 ha.1
  obtain ⟨ta, hta⟩ := Option.isSome_iff_exists.1 ha.2
  obtain ⟨db, hdb⟩ := Option.isSome_iff_exists.1 hb.1
  obtain ⟨tb, htb⟩ := Option.isSome_iff_exists.1 hb.2
  unfold entryLE sortCmpVal jsSub
  rw [hda, hdb, hta, htb]
  dsimp only
  split_ifs with h
  · have hne : da ≠ db := by
      intro hz
      subst hz
      exact h (by simp)
    simp only [Option.getD_some, decide_eq_true_eq]
    constructor
    · intro hle
      exact Or.inl (by omega)
    · rintro (hlt | ⟨heq, _⟩)
      · omega
      · omega
  · have heq : da = db := by
      by_contra hne
      refine h ?_
      simp only [ne_eq, Option.some.injEq]
      omega
    simp only [Option.getD_some, decide_eq_true_eq]
    constructor
    · intro hle
      exact Or.inr ⟨by omega, by omega⟩
    · rintro (hlt | ⟨_, hle⟩)
      · omega
      · omega

/-- Inserting into a comparator-chain keeps it a chain, provided the
comparator is total on the elements involved. -/
theorem chain_insertOrd (le : LectureEntry → LectureEntry → Bool)
    (P : LectureEntry → Prop)
    (tot : ∀ a b, P a → P b → le a b = true ∨ le b a = true) :
    ∀ (l : List LectureEntry) (x : LectureEntry), P x → (∀ y ∈ l, P y) →
      List.Chain' (fun a b => le a b = true) l →
      List.Chain' (fun a b => le a b = true) (insertOrd le x l) := by
  intro l
  induction l with
  | nil => intro x _ _ _; simp [insertOrd]
  | cons z zs ih =>
    intro x hx hl hc
    simp only [insertOrd]
    split_ifs with h
    · exact List.chain'_cons.2 ⟨h, hc⟩
    · have hzx : le z x = true := by
        rcases tot x z hx (hl z (List.mem_cons_self z zs)) with h2 | h2
        · exact absurd h2 h
        · exact h2
      have hc2 := List.chain'_cons'.1 hc
      refine List.chain'_cons'.2 ⟨?_, ih x hx (fun y hy => hl y (List.mem_cons_of_mem z hy))
        hc2.2⟩
      intro y hy
      cases zs with
      | nil =>
        simp only [insertOrd, List.head?_cons, Option.mem_def, Option.some.injEq] at hy
        exact hy ▸ hzx
      | cons w ws =>
        simp only [insertOrd] at hy
        by_cases hxw : le x w = true
        · rw [if_pos hxw] at hy
          simp only [List.head?_cons, Option.mem_def, Option.some.injEq] at hy
          exact hy ▸ hzx
        · rw [if_neg hxw] at hy
          simp only [List.head?_cons, Option.mem_def, Option.some.injEq] at hy
          refine hy ▸ hc2.1 w ?_
          simp

/-- The modelled sort produces a comparator-chain on well-behaved inputs. -/
theorem chain_sortOrd (le : LectureEntry → LectureEntry → Bool)
    (P : LectureEntry → Prop)
    (tot : ∀ a b, P a → P b → le a b = true ∨ le b a = true) :
    ∀ l : List LectureEntry, (∀ y ∈ l, P y) →
      List.Chain' (fun a b => le a b = true) (sortOrd le l) := by
  intro l
  induction l with
  | nil => intro _; simp [sortOrd]
  | cons x xs ih =>
    intro hl
    have hxs : ∀ y ∈ xs, P y := fun y hy => hl y (List.mem_cons_of_mem x hy)
    refine chain_insertOrd le P tot (sortOrd le xs) x (hl x (List.mem_cons_self x xs)) ?_
      (ih hxs)
    intro y hy
    exact hxs y ((mem_sortOrd le xs y).1 hy)

/-- Pointwise strengthening of a chain over a predicate that holds on the
whole list. -/
theorem chain_imp_on (R S : LectureEntry → LectureEntry → Prop)
    (P : LectureEntry → Prop)
    (himp : ∀ a b, P a → P b → R a b → S a b) :
    ∀ l : List LectureEntry, (∀ y ∈ l, P y) → List.Chain' R l → List.Chain' S l := by
  intro l
  induction l with
  | nil => intro _ _; simp
  | cons a t ih =>
    intro hl hc
    cases t with
    | nil => simp
    | cons b t2 =>
      have hc2 := List.chain'_cons.1 hc
      refine List.chain'_cons.2 ⟨himp a b (hl a (by simp)) (hl b (by simp)) hc2.1, ?_⟩
      exact ih (fun y hy => hl y (List.mem_cons_of_mem a hy)) hc2.2

/-- C6: after the pipeline sort, adjacent entries have non-decreasing
weekday order (Monday=0 … Sunday=6), and within equal weekdays
non-decreasing start time in minutes since midnight, provided every entry
carries a canonical weekday and a parseable start time (which is how all
strategies emit them). -/
theorem sort_monotone :
    ∀ l : List LectureEntry,
      (∀ e ∈ l, (dayOrderOf e.day).isSome ∧ (time12ToMinutes e.startTime).isSome) →
      List.Chain'
        (fun a b =>
          (dayOrderOf a.day).getD 0 ≤ (dayOrderOf b.day).getD 0 ∧
            ((dayOrderOf a.day).getD 0 = (dayOrderOf b.day).getD 0 →
              (time12ToMinutes a.startTime).getD 0 ≤ (time12ToMinutes b.startTime).getD 0))
        (sortEntries l) := by
  intro l hl
  have tot : ∀ a b : LectureEntry,
      ((dayOrderOf a.day).isSome ∧ (time12ToMinutes a.startTime).isSome) →
      ((dayOrderOf b.day).isSome ∧ (time12ToMinutes b.startTime).isSome) →
      entryLE a b = true ∨ entryLE b a = true := by
    intro a b ha hb
    rw [entryLE_char a b ha hb, entryLE_char b a hb ha]
    omega
  have hchain := chain_sortOrd entryLE _ tot l hl
  have hmem : ∀ y ∈ sortEntries l,
      (dayOrderOf y.day).isSome ∧ (time12ToMinutes y.startTime).isSome :=
    fun y hy => hl y ((mem_sortOrd entryLE l y).1 hy)
  refine chain_imp_on _ _
    (fun e => (dayOrderOf e.day).isSome ∧ (time12ToMinutes e.startTime).isSome)
    ?_ (sortEntries l) hmem hchain
  intro a b ha hb hr
  rw [entryLE_char a b ha hb] at hr
  constructor
  · rcases hr with h | ⟨h1, _⟩ <;> omega
  · intro he
    rcases hr with h | ⟨_, h2⟩
    · omega
    · exact h2

/-- Witness for C6: sorting the concrete out-of-order list
`[entryTueB, entryB, entryA]`. -/
theorem sort_monotone_witness :
    List.Chain'
      (fun a b =>
        (dayOrderOf a.day).getD 0 ≤ (dayOrderOf b.day).getD 0 ∧
          ((dayOrderOf a.day).getD 0 = (dayOrderOf b.day).getD 0 →
            (time12ToMinutes a.startTime).getD 0 ≤ (time12ToMinutes b.startTime).getD 0))
      (sortEntries [entryTueB, entryB, entryA]) :=
  sort_monotone [entryTueB, entryB, entryA] (by decide)

/-! ## C7 -/

/-- Entries surviving `dedupFirstAux` avoid the seen set. -/
theorem dedupFirstAux_notSeen :
    ∀ (l : List String) (seen : List String),
      ∀ x ∈ dedupFirstAux seen l, seen.contains x = false := by
  intro l
  induction l with
  | nil => intro seen x hx; simp [dedupFirstAux] at hx
  | cons a rest ih =>
    intro seen x hx
    cases ha : seen.contains a with
    | true =>
      simp only [dedupFirstAux, ha, if_true] at hx
      exact ih seen x hx
    | false =>
      simp only [dedupFirstAux, ha, Bool.false_eq_true, if_false] at hx
      rcases List.mem_cons.1 hx with rfl | hx
      · exact ha
      · have h2 := ih (a :: seen) x hx
        simp only [List.contains_cons, Bool.or_eq_false_iff] at h2
        exact h2.2

/-- The output of `dedupFirstAux` has no duplicates. -/
theorem dedupFirstAux_nodup :
    ∀ (l : List String) (seen : List String), (dedupFirstAux seen l).Nodup := by
  intro l
  induction l with
  | nil => intro seen; simp [dedupFirstAux]
  | cons a rest ih =>
    intro seen
    cases ha : seen.contains a with
    | true => simp only [dedupFirstAux, ha, if_true]; exact ih seen
    | false =>
      simp only [dedupFirstAux, ha, Bool.false_eq_true, if_false, List.nodup_cons]
      refine ⟨?_, ih (a :: seen)⟩
      intro hmem
      have h2 := dedupFirstAux_notSeen rest (a :: seen) a hmem
      simp only [List.contains_cons, Bool.or_eq_false_iff, beq_eq_false_iff_ne] at h2
      exact h2.1 rfl

/-- The distinct section codes extracted from one cell have no duplicates. -/
theorem extractAllSections_nodup (text : String) (li : Nat) :
    (extractAllSectionsSt text li).Nodup :=
  dedupFirstAux_nodup _ []

/-- C7: a non-empty, non-skippable cell under an active time slot whose
text carries n distinct (case-normalised, deduplicated) section codes makes
the room-row strategy emit exactly one entry per code — all identical in
day, time label, start/end time, subject, teacher, room and confidence —
appended to the accumulated entries; concretely, the
`gridTwoSections` cell holding both `BSSE-4C` and `BSAI-7A` yields exactly
the two entries `entryDS1`/`entryDS2`, identical apart from the section
code. -/
theorem section_explosion :
    (∀ (r : Nat) (day room : String) (g : Int → Int → String) (st : RRState)
        (ts : TimeSlotInfo),
        st.rst = ⟨0, 0⟩ →
        g r ts.col ≠ "" →
        isSkippable (g r ts.col) = false →
        extractAllSections (g r ts.col) ≠ [] →
        (roomRowCell r day room g st ts).entries =
          st.entries ++
            (extractAllSections (g r ts.col)).map (fun sec =>
              { day := day
                time := ts.start12 ++ " – " ++ ts.end12
                startTime := ts.start12
                endTime := ts.end12
                subject := (parseCellSt (g r ts.col) g r ts.col ⟨0, 0⟩).1.subject
                teacher := (parseCellSt (g r ts.col) g r ts.col ⟨0, 0⟩).1.teacher
                room := room
                «section» := sec
                confidence := (parseCellSt (g r ts.col) g r ts.col ⟨0, 0⟩).1.confidence
                : LectureEntry }) ∧
          (extractAllSections (g r ts.col)).Nodup) ∧
      (parseRoomRowLayoutSt rangeTwoSections gridTwoSections ⟨0, 0⟩).1.entries =
        [entryDS1, entryDS2] := by
  constructor
  · intro r day room g st ts hrst hne hskip hsec
    refine ⟨?_, extractAllSections_nodup _ 0⟩
    simp only [roomRowCell, hrst]
    rw [if_neg (by simp [hne, hskip])]
    rw [if_neg (show ¬((parseCellSt (g r ts.col) g r ts.col ⟨0, 0⟩).1.sections = []) from hsec)]
    rfl
  · decide

/-- Witness for C7: the per-cell explosion at the concrete two-section cell
of `gridTwoSections`. -/
theorem section_explosion_witness :
    (roomRowCell 1 "Monday" "Room #101" gridTwoSections rrStateFix tsFix).entries =
      rrStateFix.entries ++
        (extractAllSections (gridTwoSections 1 tsFix.col)).map (fun sec =>
          { day := "Monday"
            time := tsFix.start12 ++ " – " ++ tsFix.end12
            startTime := tsFix.start12
            endTime := tsFix.end12
            subject := (parseCellSt (gridTwoSections 1 tsFix.col) gridTwoSections 1 tsFix.col
              ⟨0, 0⟩).1.subject
            teacher := (parseCellSt (gridTwoSections 1 tsFix.col) gridTwoSections 1 tsFix.col
              ⟨0, 0⟩).1.teacher
            room := "Room #101"
            «section» := sec
            confidence := (parseCellSt (gridTwoSections 1 tsFix.col) gridTwoSections 1 tsFix.col
              ⟨0, 0⟩).1.confidence
            : LectureEntry }) ∧
      (extractAllSections (gridTwoSections 1 tsFix.col)).Nodup :=
  section_explosion.1 1 "Monday" "Room #101" gridTwoSections rrStateFix tsFix rfl
    (by decide) (by decide) (by decide)

/-! ## C8 -/

/-- If every element of a non-empty list equals `m`, its last element is
`m`. -/
theorem getLast_all_eq :
    ∀ (l : List CellRange) (m : CellRange),
      (∀ x ∈ l, x = m) → m ∈ l → l.getLast? = some m := by
  intro l
  induction l with
  | nil => intro m _ hm; cases hm
  | cons a t ih =>
    intro m hall hm
    cases t with
    | nil =>
      have ha : a = m := hall a (by simp)
      simp [ha]
    | cons b t2 =>
      rw [List.getLast?_cons_cons]
      refine ih m (fun x hx => hall x (List.mem_cons_of_mem a hx)) ?_
      have hb : b = m := hall b (by simp)
      exact hb ▸ List.mem_cons_self b t2

/-- C8: the cell resolver returns the merged region's origin value for
non-origin members of a declared region, the cell's own value otherwise,
and the empty string when the resolved cell is absent (the `Option.map` /
`getD ""` on the right-hand sides spells out exactly this absent-cell
behaviour); being a Lean function, the lookup has no side effects. -/
theorem resolver_spec :
    (∀ (merges : List CellRange) (cells : Int → Int → Option String) (r c : Int),
        (∀ m ∈ merges, memNonOrigin m r c = false) →
        getMergedCellValue merges cells r c = ((cells r c).map strTrim).getD "") ∧
      (∀ (merges : List CellRange) (cells : Int → Int → Option String) (r c : Int)
          (m : CellRange), m ∈ merges → memNonOrigin m r c = true →
          (∀ m' ∈ merges, memNonOrigin m' r c = true → m' = m) →
          getMergedCellValue merges cells r c =
            ((cells (m.sr : Int) (m.sc : Int)).map strTrim).getD "") := by
  constructor
  · intro merges cells r c hnone
    have hf : merges.filter (fun m => memNonOrigin m r c) = [] := by
      rw [List.filter_eq_nil_iff]
      intro a ha
      simp [hnone a ha]
    unfold getMergedCellValue mergeLookup
    rw [hf]
    show (match cells r c with
          | some v => strTrim v
          | none => "") = ((cells r c).map strTrim).getD ""
    cases cells r c <;> rfl
  · intro merges cells r c m hm hmem huniq
    have hf1 : ∀ x ∈ merges.filter (fun m2 => memNonOrigin m2 r c), x = m := by
      intro x hx
      have h2 := List.mem_filter.1 hx
      exact huniq x h2.1 h2.2
    have hf2 : m ∈ merges.filter (fun m2 => memNonOrigin m2 r c) :=
      List.mem_filter.2 ⟨hm, hmem⟩
    unfold getMergedCellValue mergeLookup
    rw [getLast_all_eq _ m hf1 hf2]
    show (match cells (m.sr : Int) (m.sc : Int) with
          | some v => strTrim v
          | none => "") = ((cells (m.sr : Int) (m.sc : Int)).map strTrim).getD ""
    cases cells (m.sr : Int) (m.sc : Int) <;> rfl

/-- Witness for C8: on the concrete 2×2 merged region, the non-origin
address (1,1) resolves to the trimmed origin value, (2,2) to its own value,
and the absent (5,5) to the empty string. -/
theorem resolver_spec_witness :
    getMergedCellValue mergesFix cellsFix 1 1 = ((cellsFix 0 0).map strTrim).getD "" ∧
      getMergedCellValue mergesFix cellsFix 2 2 = ((cellsFix 2 2).map strTrim).getD "" ∧
      getMergedCellValue mergesFix cellsFix 5 5 = ((cellsFix 5 5).map strTrim).getD "" :=
  ⟨resolver_spec.2 mergesFix cellsFix 1 1 ⟨0, 0, 1, 1⟩ (by decide) (by decide) (by decide),
    resolver_spec.1 mergesFix cellsFix 2 2 (by decide),
    resolver_spec.1 mergesFix cellsFix 5 5 (by decide)⟩

/-! ## C9 -/

/-- C9 (counterexample): the claim's hour rule "add 12 to raw hours 1–7"
disagrees with the code on raw hour 0 — `normalizeTimeSlot` adds 12 to every
hour `≤ 7`, so `"0:30-5:00"` normalises to 12:30 PM, not the 12:30 AM the
claimed rule produces. -/
theorem normalizeTimeSlot_hour0_counterexample :
    normalizeTimeSlot "0:30-5:00" = some ("12:30 PM", "5:00 PM") ∧
      normalizeTimeSlotClaim "0:30-5:00" = some ("12:30 AM", "5:00 PM") ∧
      normalizeTimeSlot "0:30-5:00" ≠ normalizeTimeSlotClaim "0:30-5:00" := by
  refine ⟨by decide, by decide, by decide⟩

/-- C9 (amended): `normalizeTimeSlot` parses the two hour:minute pairs of
the first matching pattern, adds 12 to any raw hour in 0–7, rejects parses
with adjusted hour over 23 or minutes over 59 (falling through to the next
pattern), otherwise converts both endpoints to canonical 12-hour form, and
returns null when no pattern yields an accepted parse — i.e. it coincides
with the spec text amended from "1–7" to "0–7"
(`normalizeTimeSlotAmended`). -/
theorem normalizeTimeSlot_amended_rule :
    ∀ raw : String, normalizeTimeSlot raw = normalizeTimeSlotAmended raw := by
  intro raw
  unfold normalizeTimeSlot normalizeTimeSlotAmended
  have hadj : (fun h : Nat => if h ≤ 7 then h + 12 else h) =
      (fun h : Nat => if 0 ≤ h && h ≤ 7 then h + 12 else h) := by
    funext h
    simp [Nat.zero_le]
  rw [hadj]

/-! ## C10 -/

set_option maxHeartbeats 2000000 in
/-- C10: the 12-hour conversions round-trip — for every `h ≤ 23`, `m ≤ 59`,
`time12ToMinutes (to12Hour "hh:mm")` is exactly `60*h + m` minutes,
including midnight (through "12:MM AM") and noon (through "12:MM PM"). -/
theorem time_roundtrip :
    ∀ h : Nat, h < 24 → ∀ m : Nat, m < 60 →
      time12ToMinutes
          (to12Hour (String.mk (padStart2 (natToStrL h) ++ ':' :: padStart2 (natToStrL m)))) =
        some ((60 * h + m : Nat) : Int) := by
  decide

/-- Witness for C10: 13:05 maps through "1:05 PM" back to 785 minutes. -/
theorem time_roundtrip_witness :
    time12ToMinutes
        (to12Hour (String.mk (padStart2 (natToStrL 13) ++ ':' :: padStart2 (natToStrL 5)))) =
      some ((60 * 13 + 5 : Nat) : Int) :=
  time_roundtrip 13 (by decide) 5 (by decide)
